import Mathlib

/-!
# Verification of the markdown-preview rendering pipeline

A shallow embedding, over `List Char`, of the core transformation pipeline of
`src/extension.js`: protected-region extraction and restoration (block math,
inline math, mermaid diagram fences), the code-fence-aware heading scanner,
heading-id injection into rendered HTML, table-of-contents generation, the
CSP nonce generator, and the top-level `updateWebviewContent` render pass.

External collaborators (the `marked` markdown renderer, the VS Code URI
resolver, `Math.random`) are modelled as function parameters; a renderer that
can throw is modelled as a function into `Except`.

JavaScript regular-expression `replace` loops are modelled as fuel-indexed
scanners (`scanReplaceF`); the fuel equals the input length at the top-level
wrapper, which is always sufficient because every match consumes at least one
character.
-/

namespace MarkdownPreview

/-- JS `\s` character class restricted to the ASCII whitespace the pipeline
can meet: space, tab, newline, carriage return, vertical tab, form feed. -/
def isJsWs (c : Char) : Bool :=
  c = ' ' || c = '\t' || c = '\n' || c = '\r' || c = '\x0b' || c = '\x0c'

/-- JS `\w` character class: ASCII letters, digits and underscore. -/
def isWordChar (c : Char) : Bool :=
  ('a' ≤ c && c ≤ 'z') || ('A' ≤ c && c ≤ 'Z') || ('0' ≤ c && c ≤ '9') || c = '_'

/-- The decimal digit characters, as produced by JS number-to-string
interpolation of a nonnegative integer. -/
def digitChar : Nat → Char
  | 0 => '0' | 1 => '1' | 2 => '2' | 3 => '3' | 4 => '4'
  | 5 => '5' | 6 => '6' | 7 => '7' | 8 => '8' | _ => '9'

/-- Numeric value of a digit character, as computed by JS `parseInt`
(code point minus 48). -/
def digitVal (c : Char) : Nat := c.toNat - 48

/-- Fuel-indexed decimal printer (accumulator form). `natToDecimal` supplies
`n + 1` fuel, which always suffices since a number has at most `n + 1` digits. -/
def natToDecimalAux : Nat → Nat → List Char → List Char
  | 0, _, acc => acc
  | fuel + 1, n, acc =>
    if n < 10 then digitChar n :: acc
    else natToDecimalAux fuel (n / 10) (digitChar (n % 10) :: acc)

/-- Decimal representation of a natural number, as JS template interpolation
`${n}` produces for a nonnegative integer. -/
def natToDecimal (n : Nat) : List Char := natToDecimalAux (n + 1) n []

/-- JS `parseInt` on a list of decimal digits. -/
def digitsVal (ds : List Char) : Nat := ds.foldl (fun a c => a * 10 + digitVal c) 0

/-- The three kinds of protected region extracted before markdown rendering
(`preservedBlocks[i].type` in the source: "mermaid", "math-block",
"math-inline"). -/
inductive BlockType where
  | mermaid
  | mathBlock
  | mathInline
  deriving DecidableEq, Repr

/-- One entry of the `preservedBlocks` array: its `type` tag and the `content`
string that restoration will substitute for the placeholder. -/
structure PBlock where
  type : BlockType
  content : List Char
  deriving DecidableEq, Repr

/-- The placeholder comment the extraction passes substitute for a protected
region: `<!--PRESERVED_${i}-->`. -/
def placeholder (i : Nat) : List Char :=
  ("<!--PRESERVED_").data ++ natToDecimal i ++ ("-->").data

/-- Index of the last `'\n'` in a list, if any. Used to model the greedy
backtracking of `\s*\n`: the star consumes the whitespace run up to (and the
`\n` consumes) the last newline inside the maximal whitespace run. -/
def lastNlIdx : List Char → Option Nat
  | [] => none
  | c :: cs =>
    match lastNlIdx cs with
    | some k => some (k + 1)
    | none => if c = '\n' then some 0 else none

/-- Split a list at the first occurrence of `"$$"`, returning the part before
it and the part after it. Models the lazy `([\s\S]*?)\$\$` tail of the
block-math pattern: the lazy group stops at the first `$$`. -/
def splitAtDD : List Char → Option (List Char × List Char)
  | [] => none
  | [_] => none
  | c :: d :: t =>
    if c = '$' ∧ d = '$' then some ([], t)
    else
      match splitAtDD (d :: t) with
      | some (a, b) => some (c :: a, b)
      | none => none

/-- Split a list at the first occurrence of three backticks, returning the
part before and the part after. Models the lazy `([\s\S]*?)` + closing fence
of the mermaid pattern. -/
def splitAtTicks : List Char → Option (List Char × List Char)
  | [] => none
  | [_] => none
  | [_, _] => none
  | c :: d :: e :: t =>
    if c = '\x60' ∧ d = '\x60' ∧ e = '\x60' then some ([], t)
    else
      match splitAtTicks (d :: e :: t) with
      | some (a, b) => some (c :: a, b)
      | none => none

/-- JS `String.prototype.trim`: strip whitespace from both ends. -/
def trimWs (l : List Char) : List Char :=
  ((l.dropWhile isJsWs).reverse.dropWhile isJsWs).reverse

/-- Attempt to match the block-math pattern `/\$\$\s*\n([\s\S]*?)\$\$/` at the
head of the input. On success returns the preserved block (content
`"$$\n" + code + "$$"`, as the source's callback rebuilds it) and the
remaining input after the match. `\s*\n` consumes through the last newline of
the maximal whitespace run after the opening `$$` (greedy star with
backtracking); the lazy body stops at the first subsequent `$$`. -/
def tryBlockMath : List Char → Option (PBlock × List Char)
  | c :: d :: t =>
    if c = '$' ∧ d = '$' then
      let w := t.takeWhile isJsWs
      match lastNlIdx w with
      | none => none
      | some k =>
        let after := t.drop (k + 1)
        match splitAtDD after with
        | none => none
        | some (code, rest) =>
          some (⟨BlockType.mathBlock, '$' :: '$' :: '\n' :: (code ++ ['$', '$'])⟩, rest)
    else none
  | _ => none

/-- Attempt to match the inline-math pattern `/\$([^$\n]+)\$/` at the head of
the input: a `$`, a nonempty run of characters that are neither `$` nor
newline, then a `$`. Content preserved verbatim with its delimiters
(`"$" + code + "$"`). -/
def tryInline : List Char → Option (PBlock × List Char)
  | c :: t =>
    if c = '$' then
      let run := t.takeWhile (fun c => !(c = '$' || c = '\n'))
      if run.isEmpty then none
      else
        match t.drop run.length with
        | '$' :: rest => some (⟨BlockType.mathInline, '$' :: (run ++ ['$'])⟩, rest)
        | _ => none
    else none
  | [] => none

/-- Attempt to match the mermaid pattern `/\x60\x60\x60mermaid\s*\n([\s\S]*?)\x60\x60\x60/`
at the head of the input. The preserved content is
`<pre class="mermaid">` + trimmed code + `</pre>`, as the source's callback
builds it. -/
def tryMermaid (cs : List Char) : Option (PBlock × List Char) :=
  if ("\x60\x60\x60mermaid").data.isPrefixOf cs then
    let t := cs.drop 10
    let w := t.takeWhile isJsWs
    match lastNlIdx w with
    | none => none
    | some k =>
      let after := t.drop (k + 1)
      match splitAtTicks after with
      | none => none
      | some (code, rest) =>
        some (⟨BlockType.mermaid,
               ("<pre class=\"mermaid\">").data ++ trimWs code ++ ("</pre>").data⟩, rest)
  else none

/-- Attempt to match the restoration pattern `/<!--PRESERVED_(\d+)-->/` at the
head of the input, returning the parsed index and the rest. The greedy `\d+`
takes the maximal digit run, which must be followed immediately by `-->`. -/
def tryPreserved (cs : List Char) : Option (Nat × List Char) :=
  if ("<!--PRESERVED_").data.isPrefixOf cs then
    let t := cs.drop 14
    let ds := t.takeWhile Char.isDigit
    if ds.isEmpty then none
    else
      match t.drop ds.length with
      | '-' :: '-' :: '>' :: rest => some (digitsVal ds, rest)
      | _ => none
  else none

/-- Fuel-indexed model of one global-regex extraction pass
(`raw.replace(pattern, callback)` where the callback pushes onto
`preservedBlocks` and returns the placeholder comment). The scanner advances
one character on failure and jumps past the match on success, exactly as the
JS regex engine does with a `g`-flagged pattern. -/
def scanReplaceF (try_ : List Char → Option (PBlock × List Char)) :
    Nat → List Char → List PBlock → List Char × List PBlock
  | 0, cs, bs => (cs, bs)
  | _ + 1, [], bs => ([], bs)
  | fuel + 1, c :: cs, bs =>
    match try_ (c :: cs) with
    | some (b, rest) =>
      let r := scanReplaceF try_ fuel rest (bs ++ [b])
      (placeholder bs.length ++ r.1, r.2)
    | none =>
      let r := scanReplaceF try_ fuel cs bs
      (c :: r.1, r.2)

/-- One extraction pass with sufficient fuel. -/
def scanReplace (try_ : List Char → Option (PBlock × List Char))
    (cs : List Char) (bs : List PBlock) : List Char × List PBlock :=
  scanReplaceF try_ cs.length cs bs

/-- The three extraction passes of `updateWebviewContent`, in source order:
block math, then inline math, then mermaid fences, all pushing onto the same
`preservedBlocks` array. -/
def extractBlocks (raw : List Char) : List Char × List PBlock :=
  let r1 := scanReplace tryBlockMath raw []
  let r2 := scanReplace tryInline r1.1 r1.2
  let r3 := scanReplace tryMermaid r2.1 r2.2
  r3

/-- Fuel-indexed model of the restoration pass
`html.replace(/<!--PRESERVED_(\d+)-->/g, cb)`. When the parsed index is out of
range, `preservedBlocks[i]` is `undefined` and the callback's `block.type`
access throws a `TypeError`, modelled as `Except.error ()`; the exception
aborts the whole `replace` call. In range, the callback returns
`block.content` for each of the three block types (all three branches of the
source return the stored content). -/
def restoreScanF (bs : List PBlock) : Nat → List Char → Except Unit (List Char)
  | 0, cs => Except.ok cs
  | _ + 1, [] => Except.ok []
  | fuel + 1, c :: cs =>
    match tryPreserved (c :: cs) with
    | some (k, rest) =>
      match bs[k]? with
      | none => Except.error ()
      | some b => (restoreScanF bs fuel rest).map (fun o => b.content ++ o)
    | none => (restoreScanF bs fuel cs).map (fun o => c :: o)

/-- The restoration pass with sufficient fuel. -/
def restoreScan (bs : List PBlock) (cs : List Char) : Except Unit (List Char) :=
  restoreScanF bs cs.length cs

/-- Extraction followed by restoration with the identity in place of the
markdown renderer (the round-trip composition of §8 of the spec). -/
def extractRestoreId (raw : List Char) : Except Unit (List Char) :=
  let r := extractBlocks raw
  restoreScan r.2 r.1

/-! ## Heading scanner (`extractHeadings`) -/

/-- One heading record produced by `extractHeadings`: `level`, trimmed `text`,
derived `id`, and the 0-based `lineIndex` of the source line. -/
structure Heading where
  level : Nat
  text : List Char
  id : List Char
  lineIndex : Nat
  deriving DecidableEq, Repr

/-- `raw.split("\n")`. -/
def splitLines : List Char → List (List Char)
  | [] => [[]]
  | '\n' :: cs => [] :: splitLines cs
  | c :: cs =>
    match splitLines cs with
    | l :: ls => (c :: l) :: ls
    | [] => [[c]]

/-- Does the line match `/^\x60\x60\x60/`, i.e. start with three backticks?
Such a line toggles the code-fence flag and is never scanned as a heading. -/
def isFence (line : List Char) : Bool :=
  line.take 3 = ("\x60\x60\x60").data

/-- Match a line against the heading pattern `/^(#{1,6})\s+(.+)$/` (`.` does
not match a newline; split lines contain none). Returns the level (number of
leading `#`) and the already-trimmed text (`match[2].trim()`). The greedy
`\s+`/`(.+)` interplay: with `W` the maximal whitespace run after the hashes,
if anything follows `W` the captured group is that remainder; if nothing
follows and `|W| ≥ 2` the group captures the last whitespace character
(trimming to the empty text); with `|W| = 1` and nothing after, no match.
A line whose leading `#` run is longer than 6 never matches, because `\s+`
cannot match the seventh `#`. -/
def matchHeading (line : List Char) : Option (Nat × List Char) :=
  let hashes := line.takeWhile (fun c => c = '#')
  if hashes.length < 1 || 6 < hashes.length then none
  else
    let rest := line.drop hashes.length
    let ws := rest.takeWhile isJsWs
    let content := rest.drop ws.length
    if ws.isEmpty then none
    else if content.isEmpty then
      if 2 ≤ ws.length then some (hashes.length, []) else none
    else some (hashes.length, trimWs content)

/-- Lower-case a character as JS `toLowerCase` does on the ASCII range. -/
def jsToLower (c : Char) : Char := c.toLower

/-- `replace(/\s+/g, "-")`: collapse every maximal whitespace run to a single
hyphen. The boolean records whether the previous character was whitespace. -/
def collapseWsAux : Bool → List Char → List Char
  | _, [] => []
  | prevWs, c :: cs =>
    if isJsWs c then
      if prevWs then collapseWsAux true cs else '-' :: collapseWsAux true cs
    else c :: collapseWsAux false cs

/-- The slug of a heading text:
`text.toLowerCase().replace(/[^\w\s-]/g, "").replace(/\s+/g, "-")`. -/
def slugify (text : List Char) : List Char :=
  collapseWsAux false
    ((text.map jsToLower).filter (fun c => isWordChar c || isJsWs c || c = '-'))

/-- The id of a heading: `heading-${slug}-${index}`. -/
def headingId (text : List Char) (index : Nat) : List Char :=
  ("heading-").data ++ slugify text ++ '-' :: natToDecimal index

/-- Build the heading record pushed by the scanner. -/
def mkHeading (level : Nat) (text : List Char) (index : Nat) : Heading :=
  ⟨level, text, headingId text index, index⟩

/-- The line loop of `extractHeadings`: a fence line toggles the
`insideCodeBlock` flag and is skipped; other lines are matched against the
heading pattern only while the flag is false. -/
def scanHeadings : List (List Char) → Nat → Bool → List Heading
  | [], _, _ => []
  | line :: rest, index, inside =>
    if isFence line then scanHeadings rest (index + 1) (!inside)
    else if inside then scanHeadings rest (index + 1) inside
    else
      match matchHeading line with
      | some (level, text) => mkHeading level text index :: scanHeadings rest (index + 1) inside
      | none => scanHeadings rest (index + 1) inside

/-- `extractHeadings(raw)`: split into lines and scan with the fence flag
initially false. -/
def extractHeadings (raw : List Char) : List Heading :=
  scanHeadings (splitLines raw) 0 false

/-! ## TOC generation (`generateTOC`) -/

/-- The atomic pieces `generateTOC` appends to its output string: an opening
`<ul class="toc-list">`, a closing `</ul>`, or one `<li>…</li>` entry. -/
inductive TocTok where
  | openUL
  | closeUL
  | item (level : Nat) (id : List Char) (text : List Char)
  deriving DecidableEq, Repr

/-- The `while (currentLevel >= heading.level) { tocHtml += "</ul>"; currentLevel--; }`
loop. Returns the new `currentLevel` and the emitted tokens. (With heading
levels ≥ 1, as `matchHeading` guarantees, the loop always stops at
`heading.level - 1`; the `cur = 0` base case is then exact.) -/
def closeLoop : Nat → Nat → Nat × List TocTok
  | 0, _ => (0, [])
  | cur + 1, lvl =>
    if lvl ≤ cur + 1 then
      let r := closeLoop cur lvl
      (r.1, TocTok.closeUL :: r.2)
    else (cur + 1, [])

/-- Fuel-indexed body of the opening loop; `openWhile` passes `target - cur`
fuel, which is exact since each iteration increments `currentLevel`. -/
def openWhileF : Nat → Nat → Nat → Nat × List TocTok
  | 0, cur, _ => (cur, [])
  | fuel + 1, cur, target =>
    if cur < target then
      let r := openWhileF fuel (cur + 1) target
      (r.1, TocTok.openUL :: r.2)
    else (cur, [])

/-- The `while (currentLevel < target) { tocHtml += "<ul …>"; currentLevel++; }`
loop. -/
def openWhile (cur target : Nat) : Nat × List TocTok :=
  openWhileF (target - cur) cur target

/-- Emit `</ul>` `cur` times (the trailing
`while (currentLevel > 0) { tocHtml += "</ul>"; currentLevel--; }`). -/
def closeAll : Nat → List TocTok
  | 0 => []
  | cur + 1 => TocTok.closeUL :: closeAll cur

/-- The body of `generateTOC`'s heading loop, in recursive form: for each
heading, close levels while `currentLevel ≥ heading.level`, open levels while
`currentLevel < heading.level - 1`, open one more if still below the level,
then emit the entry; after the last heading, close all open levels. -/
def tocBody : Nat → List Heading → List TocTok
  | cur, [] => closeAll cur
  | cur, h :: hs =>
    let c := closeLoop cur h.level
    let o1 := openWhile c.1 (h.level - 1)
    let o2 : Nat × List TocTok :=
      if o1.1 < h.level then (o1.1 + 1, [TocTok.openUL]) else (o1.1, [])
    c.2 ++ o1.2 ++ o2.2 ++ TocTok.item h.level h.id h.text :: tocBody o2.1 hs

/-- The token stream of `generateTOC` for a nonempty heading list: the initial
`<ul class="toc-list">` followed by the loop's output. -/
def generateTOCtokens (hs : List Heading) : List TocTok :=
  TocTok.openUL :: tocBody 0 hs

/-- Render one token to the exact string fragment the source appends. -/
def renderTocTok : TocTok → List Char
  | TocTok.openUL => ("<ul class=\"toc-list\">").data
  | TocTok.closeUL => ("</ul>").data
  | TocTok.item level id text =>
    ("<li class=\"toc-item toc-level-").data ++ natToDecimal level ++ ("\"><a href=\"#").data
      ++ id ++ ("\" class=\"toc-link\">").data ++ text ++ ("</a></li>").data

/-- `generateTOC(headings)`: the "No headings found" paragraph for an empty
list, otherwise the rendered token stream. -/
def generateTOC (hs : List Heading) : List Char :=
  if hs.isEmpty then
    ("<p style=\"font-size: 0.9em; color: #888;\">No headings found</p>").data
  else (generateTOCtokens hs).map renderTocTok |>.flatten

/-- The `<ul>`-nesting depth at which each `<li>` entry of a token stream
sits: the running count of unclosed `<ul>`s, paired with the entry's id. -/
def itemDepths : List TocTok → Nat → List (Nat × List Char)
  | [], _ => []
  | TocTok.openUL :: ts, d => itemDepths ts (d + 1)
  | TocTok.closeUL :: ts, d => itemDepths ts (d - 1)
  | TocTok.item _ id _ :: ts, d => (d, id) :: itemDepths ts d

/-- The anchor targets of the TOC entries, in order: each entry links to
`#${heading.id}`. -/
def tocHrefs (ts : List TocTok) : List (List Char) :=
  ts.filterMap (fun t =>
    match t with
    | TocTok.item _ id _ => some ('#' :: id)
    | _ => none)

/-! ## Heading-id injection -/

/-- JS `String.prototype.replace` with a *string* pattern: replace the first
occurrence only, or return the input unchanged when there is none. -/
def replaceFirstStr (pat repl : List Char) : List Char → List Char
  | [] => []
  | c :: cs =>
    if pat.isPrefixOf (c :: cs) then repl ++ (c :: cs).drop pat.length
    else c :: replaceFirstStr pat repl cs

/-- The search pattern of the injection step: `<h${level}>`. -/
def tagPat (level : Nat) : List Char := ("<h").data ++ natToDecimal level ++ [ '>' ]

/-- The replacement of the injection step: `<h${level} id="${id}">`. -/
def tagPatId (level : Nat) (id : List Char) : List Char :=
  ("<h").data ++ natToDecimal level ++ (" id=\"").data ++ id ++ ("\">").data

/-- The `headings.forEach` loop that rewrites the rendered HTML so each
heading tag carries its id: for each record in document order, replace the
first remaining occurrence of `<h${level}>` (a tag already rewritten no
longer matches, since it now reads `<h${level} id=…`). -/
def addHeadingIdsStr (hs : List Heading) (html : List Char) : List Char :=
  hs.foldl (fun acc h => replaceFirstStr (tagPat h.level) (tagPatId h.level h.id) acc) html

/-- Rendered HTML viewed at the granularity of heading open tags: a `tag`
piece is `<h${level}>` when `id = none` and `<h${level} id="${id}">` when
set; a `txt` piece is any other stretch of markup. -/
inductive HtmlTok where
  | tag (level : Nat) (id : Option (List Char))
  | txt (s : List Char)
  deriving DecidableEq, Repr

/-- Render an `HtmlTok` back to text. -/
def renderHtmlTok : HtmlTok → List Char
  | HtmlTok.tag level none => tagPat level
  | HtmlTok.tag level (some id) => tagPatId level id
  | HtmlTok.txt s => s

/-- Render a token list back to text. -/
def renderHtml (ts : List HtmlTok) : List Char := (ts.map renderHtmlTok).flatten

/-- The injection step on the token view: set the id of the first id-free tag
of the given level. -/
def replaceFirstTag (level : Nat) (id : List Char) : List HtmlTok → List HtmlTok
  | [] => []
  | HtmlTok.tag l none :: ts =>
    if l = level then HtmlTok.tag l (some id) :: ts
    else HtmlTok.tag l none :: replaceFirstTag level id ts
  | t :: ts => t :: replaceFirstTag level id ts

/-- The `headings.forEach` loop on the token view. -/
def addHeadingIds (hs : List Heading) (ts : List HtmlTok) : List HtmlTok :=
  hs.foldl (fun acc h => replaceFirstTag h.level h.id acc) ts

/-- The ids carried by the level-`k` heading tags of a token list, in
document order. -/
def tagIds (k : Nat) (ts : List HtmlTok) : List (Option (List Char)) :=
  ts.filterMap (fun t =>
    match t with
    | HtmlTok.tag l id => if l = k then some id else none
    | _ => none)

/-- The ids of the level-`k` heading records, in document order. -/
def hIds (k : Nat) (hs : List Heading) : List (List Char) :=
  hs.filterMap (fun h => if h.level = k then some h.id else none)

/-! ## Image pass, nonce, document assembly, render pass -/

/-- Attempt to match `/<img\s+src="([^"]+)"/` at the head of the input:
`<img`, at least one whitespace character, `src="`, a nonempty run of
non-quote characters, then the closing quote. Returns the captured path and
the rest after the closing quote. -/
def tryImg (cs : List Char) : Option (List Char × List Char) :=
  if ("<img").data.isPrefixOf cs then
    let t := cs.drop 4
    let ws := t.takeWhile isJsWs
    if ws.isEmpty then none
    else
      let t2 := t.drop ws.length
      if ("src=\"").data.isPrefixOf t2 then
        let t3 := t2.drop 5
        let path := t3.takeWhile (fun c => c ≠ '"')
        if path.isEmpty then none
        else
          match t3.drop path.length with
          | '"' :: rest => some (path, rest)
          | _ => none
      else none
  else none

/-- Fuel-indexed model of the image pass
`html.replace(/<img\s+src="([^"]+)"/g, cb)`: each match is replaced by
`<img src="${resolve(path)}"`. The path resolver (which consults the VS Code
URI services) is an external collaborator passed as a function. -/
def imgPassF (resolve : List Char → List Char) : Nat → List Char → List Char
  | 0, cs => cs
  | _ + 1, [] => []
  | fuel + 1, c :: cs =>
    match tryImg (c :: cs) with
    | some (path, rest) =>
      ("<img src=\"").data ++ resolve path ++ '"' :: imgPassF resolve fuel rest
    | none => c :: imgPassF resolve fuel cs

/-- The image pass with sufficient fuel. -/
def imgPass (resolve : List Char → List Char) (cs : List Char) : List Char :=
  imgPassF resolve cs.length cs

/-- The alphabet `getNonce` draws from. -/
def noncePossible : List Char :=
  ("ABCDEFGHIJKLMNOPQRSTUVWXYZabcdefghijklmnopqrstuvwxyz0123456789").data

/-- `getNonce()`: 32 characters chosen from `noncePossible`. Each loop
iteration's `Math.floor(Math.random() * possible.length)` is modelled by the
random oracle `rand`, one index below 62 per iteration. -/
def getNonce (rand : Nat → Fin 62) : List Char :=
  (List.range 32).map (fun i => noncePossible.getD (rand i) ' ')

/-- The assembled webview document viewed as a sequence of parts, in template
order. `cspMeta` is the content-security-policy declaration parameterized by
the token; `scriptTag` is one executable script tag carrying the token (the
MathJax loader, the highlight.js loader, and the inline module script);
`chunk` is static markup and the two interpolated regions (TOC and body). -/
inductive DocPart where
  | chunk (s : List Char)
  | cspMeta (token : List Char)
  | scriptTag (token : List Char) (body : List Char)
  deriving DecidableEq, Repr

/-- The CSS of the template, elided: pure visual styling with no bearing on
the pipeline's claims. -/
def webviewStyles : List Char :=
  ("<style>/* visual styling elided */</style>").data

/-- The body of the inline module script, elided: client-side mermaid /
highlight / MathJax initialization and sidebar interaction, executed later in
the browser, outside this pipeline. -/
def inlineScriptBody : List Char :=
  ("// client-side initialization elided").data

/-- Render one document part to text. The rendered forms of `cspMeta` and
`scriptTag` carry the token exactly where the source template interpolates
`${nonce}`. -/
def renderDocPart : DocPart → List Char
  | DocPart.chunk s => s
  | DocPart.cspMeta token =>
    ("<meta http-equiv=\"Content-Security-Policy\" content=\"default-src \x27none\x27; img-src https: data: vscode-resource:; script-src \x27nonce-").data
      ++ token ++ ("\x27 https://cdn.jsdelivr.net; style-src \x27unsafe-inline\x27 https://cdn.jsdelivr.net; font-src https: data:;\">").data
  | DocPart.scriptTag token body =>
    ("<script nonce=\"").data ++ token ++ ("\">").data ++ body ++ ("</script>").data

/-- The template of `getWebviewContent(markdownHtml, nonce, headings)` as a
part sequence: head with the CSP meta tag, the TOC sidebar region holding
`generateTOC(headings)`, the main region holding the rendered body, then the
three script tags, each carrying the same nonce. -/
def getWebviewParts (markdownHtml : List Char) (nonce : List Char)
    (headings : List Heading) : List DocPart :=
  [DocPart.chunk (("<!DOCTYPE html><html lang=\"en\"><head><meta charset=\"UTF-8\"><meta name=\"viewport\" content=\"width=device-width, initial-scale=1.0\">").data),
   DocPart.cspMeta nonce,
   DocPart.chunk (("<title>Markdown Preview</title><link rel=\"stylesheet\" href=\"https://cdn.jsdelivr.net/gh/highlightjs/cdn-release@11/build/styles/atom-one-light.min.css\">").data),
   DocPart.chunk webviewStyles,
   DocPart.chunk (("</head><body><button class=\"sidebar-toggle\">Toggle</button><div class=\"sidebar-overlay\"></div><aside class=\"toc-sidebar\"><div class=\"toc-header\"><span>Contents</span><button class=\"toc-close\">X</button></div>").data),
   DocPart.chunk (generateTOC headings),
   DocPart.chunk (("</aside><main class=\"content\">").data),
   DocPart.chunk markdownHtml,
   DocPart.chunk (("</main>").data),
   DocPart.scriptTag nonce (("// MathJax CDN loader (src=https://cdn.jsdelivr.net/npm/mathjax@3/es5/tex-mml-chtml.js)").data),
   DocPart.scriptTag nonce (("// highlight.js CDN loader (src=https://cdn.jsdelivr.net/gh/highlightjs/cdn-release@11/build/highlight.min.js)").data),
   DocPart.scriptTag nonce inlineScriptBody,
   DocPart.chunk (("</body></html>").data)]

/-- Render a part sequence to the final document text. -/
def renderDoc (ps : List DocPart) : List Char := (ps.map renderDocPart).flatten

/-- `getWebviewContent(markdownHtml, nonce, headings)` as a string. -/
def getWebviewContent (markdownHtml nonce : List Char) (headings : List Heading) : List Char :=
  renderDoc (getWebviewParts markdownHtml nonce headings)

/-- The tokens carried by the executable surface of a document: the CSP
declaration's token and each script tag's token, in order. -/
def docTokens (ps : List DocPart) : List (List Char) :=
  ps.filterMap (fun p =>
    match p with
    | DocPart.cspMeta t => some t
    | DocPart.scriptTag t _ => some t
    | DocPart.chunk _ => none)

/-- `updateWebviewContent(panel, document)`. Parameters model the external
collaborators: `md` the `marked` renderer (which may throw), `resolve` the
image-path resolver, `rand` the process random source, `text` the document's
`getText()`, and `panelHtml` the display surface's current HTML. Returns the
new surface HTML together with the error message shown by the `catch`
handler, if any. On any exception (renderer throw, or the restoration
callback's `TypeError` on an out-of-range placeholder index) the surface HTML
is left untouched. -/
def updateWebviewContent (md : List Char → Except (List Char) (List Char))
    (resolve : List Char → List Char) (rand : Nat → Fin 62)
    (text : List Char) (panelHtml : List Char) : List Char × Option (List Char) :=
  let headings := extractHeadings text
  let er := extractBlocks text
  match md er.1 with
  | Except.error e => (panelHtml, some (("Failed to render markdown: ").data ++ e))
  | Except.ok html0 =>
    let html1 := addHeadingIdsStr headings html0
    match restoreScan er.2 html1 with
    | Except.error _ =>
      (panelHtml, some (("Failed to render markdown: Cannot read properties of undefined (reading \x27type\x27)").data))
    | Except.ok html2 =>
      let html3 := imgPass resolve html2
      let nonce := getNonce rand
      (getWebviewContent html3 nonce headings, none)

/-! ## Auxiliary predicates and helpers for the statements -/

/-- The text contains no protected syntax: no suffix begins a block-math,
inline-math, or mermaid-fence match. This is the hypothesis of the spec's
round-trip property, phrased through the three matchers. -/
def noProtectedSyntax (cs : List Char) : Prop :=
  ∀ t ∈ cs.tails, tryBlockMath t = none ∧ tryInline t = none ∧ tryMermaid t = none

instance (cs : List Char) : Decidable (noProtectedSyntax cs) := by
  unfold noProtectedSyntax; infer_instance

/-- The text contains no placeholder-shaped comment: no suffix begins a
`<!--PRESERVED_(\d+)-->` match. -/
def noPlaceholderComment (cs : List Char) : Prop :=
  ∀ t ∈ cs.tails, tryPreserved t = none

instance (cs : List Char) : Decidable (noPlaceholderComment cs) := by
  unfold noPlaceholderComment; infer_instance

/-- Set the first `none` of a slot list to the given id (the effect of one
injection step on the ids of the tags of its own level). -/
def replaceFirstNone (id : List Char) : List (Option (List Char)) → List (Option (List Char))
  | [] => []
  | none :: ts => some id :: ts
  | some a :: ts => some a :: replaceFirstNone id ts

/-- Fold a list of ids over a slot list, each filling the first free slot. -/
def applyIds (ids : List (List Char)) (slots : List (Option (List Char))) :
    List (Option (List Char)) :=
  ids.foldl (fun acc i => replaceFirstNone i acc) slots

/-! # Theorems -/

theorem isPrefixOf_eq (l1 l2 : List Char) : l1.isPrefixOf l2 = true ↔ l1 <+: l2 :=
 List.isPrefixOf_iff_prefix

/-! ## TOC structure (C1) -/

theorem closeLoop_eq (cur lvl : Nat) (h : 1 ≤ lvl) :
    closeLoop cur lvl = (min cur (lvl - 1), List.replicate (cur - (lvl - 1)) TocTok.closeUL) := by
  induction cur with
  | zero =>
    have hm : min 0 (lvl - 1) = 0 := by omega
    have h0 : 0 - (lvl - 1) = 0 := by omega
    simp [closeLoop, hm, h0]
  | succ n ih =>
    rw [closeLoop]
    by_cases hc : lvl ≤ n + 1
    · rw [if_pos hc, ih]
      have h1 : min n (lvl - 1) = min (n + 1) (lvl - 1) := by omega
      have h2 : (n + 1) - (lvl - 1) = (n - (lvl - 1)) + 1 := by omega
      simp [h1, h2, List.replicate_succ]
    · rw [if_neg hc]
      have h1 : min (n + 1) (lvl - 1) = n + 1 := by omega
      have h2 : (n + 1) - (lvl - 1) = 0 := by omega
      simp [h1, h2]

theorem openWhileF_eq (fuel : Nat) : ∀ cur target, target - cur ≤ fuel →
    openWhileF fuel cur target = (max cur target, List.replicate (target - cur) TocTok.openUL) := by
  induction fuel with
  | zero =>
    intro cur target h
    have h1 : max cur target = cur := by omega
    have h2 : target - cur = 0 := by omega
    simp [openWhileF, h1, h2]
  | succ n ih =>
    intro cur target h
    rw [openWhileF]
    by_cases hc : cur < target
    · rw [if_pos hc, ih (cur + 1) target (by omega)]
      have h1 : max (cur + 1) target = max cur target := by omega
      have h2 : target - cur = (target - (cur + 1)) + 1 := by omega
      simp [h1, h2, List.replicate_succ]
    · rw [if_neg hc]
      have h1 : max cur target = cur := by omega
      have h2 : target - cur = 0 := by omega
      simp [h1, h2]

theorem openWhile_eq (cur target : Nat) :
    openWhile cur target = (max cur target, List.replicate (target - cur) TocTok.openUL) :=
  openWhileF_eq _ _ _ le_rfl

theorem itemDepths_replicate_close (n : Nat) : ∀ ts d,
    itemDepths (List.replicate n TocTok.closeUL ++ ts) d = itemDepths ts (d - n) := by
  induction n with
  | zero => intro ts d; simp [itemDepths]
  | succ m ih =>
    intro ts d
    rw [List.replicate_succ, List.cons_append]
    rw [show itemDepths (TocTok.closeUL :: (List.replicate m TocTok.closeUL ++ ts)) d
          = itemDepths (List.replicate m TocTok.closeUL ++ ts) (d - 1) from rfl, ih]
    congr 1
    omega

theorem itemDepths_replicate_open (n : Nat) : ∀ ts d,
    itemDepths (List.replicate n TocTok.openUL ++ ts) d = itemDepths ts (d + n) := by
  induction n with
  | zero => intro ts d; simp [itemDepths]
  | succ m ih =>
    intro ts d
    rw [List.replicate_succ, List.cons_append]
    rw [show itemDepths (TocTok.openUL :: (List.replicate m TocTok.openUL ++ ts)) d
          = itemDepths (List.replicate m TocTok.openUL ++ ts) (d + 1) from rfl, ih]
    congr 1
    omega

theorem itemDepths_closeAll (n : Nat) : ∀ d, itemDepths (closeAll n) d = [] := by
  induction n with
  | zero => intro d; rfl
  | succ m ih => intro d; simpa [closeAll, itemDepths] using ih (d - 1)

theorem itemDepths_tocBody (hs : List Heading) : ∀ cur, (∀ h ∈ hs, 1 ≤ h.level) →
    itemDepths (tocBody cur hs) (cur + 1) = hs.map (fun h => (h.level + 1, h.id)) := by
  induction hs with
  | nil => intro cur _; simpa [tocBody] using itemDepths_closeAll cur (cur + 1)
  | cons h hs ih =>
    intro cur hlv
    have h1 : 1 ≤ h.level := hlv h (List.mem_cons_self _ _)
    simp only [tocBody, closeLoop_eq cur h.level h1, openWhile_eq]
    have hmax : max (min cur (h.level - 1)) (h.level - 1) = h.level - 1 := by omega
    rw [hmax]
    have hlt : h.level - 1 < h.level := by omega
    rw [if_pos hlt]
    simp only [List.append_assoc]
    rw [itemDepths_replicate_close, itemDepths_replicate_open]
    have hd : (cur + 1) - (cur - (h.level - 1)) + ((h.level - 1) - min cur (h.level - 1))
        = h.level := by omega
    rw [show itemDepths ([TocTok.openUL] ++
          (TocTok.item h.level h.id h.text :: tocBody (h.level - 1 + 1) hs))
          ((cur + 1) - (cur - (h.level - 1)) + ((h.level - 1) - min cur (h.level - 1)))
        = itemDepths (TocTok.item h.level h.id h.text :: tocBody (h.level - 1 + 1) hs)
          ((cur + 1) - (cur - (h.level - 1)) + ((h.level - 1) - min cur (h.level - 1)) + 1)
      from rfl]
    rw [hd]
    have hsucc : h.level - 1 + 1 = h.level := by omega
    rw [show itemDepths (TocTok.item h.level h.id h.text :: tocBody (h.level - 1 + 1) hs)
          (h.level + 1)
        = (h.level + 1, h.id) :: itemDepths (tocBody (h.level - 1 + 1) hs) (h.level + 1)
      from rfl]
    rw [hsucc, ih h.level (fun x hx => hlv x (List.mem_cons_of_mem _ hx))]
    simp

theorem matchHeading_level_bounds {line : List Char} {lvl : Nat} {txt : List Char}
    (h : matchHeading line = some (lvl, txt)) : 1 ≤ lvl ∧ lvl ≤ 6 := by
  simp only [matchHeading] at h
  split_ifs at h with h1 h2 h3 h4
  all_goals
    first
    | exact Option.noConfusion h
    | (simp only [Option.some.injEq, Prod.mk.injEq] at h
       simp only [Bool.or_eq_true, decide_eq_true_eq, not_or] at h1
       obtain ⟨h5, -⟩ := h
       omega)

theorem scanHeadings_level_ge_one : ∀ (lines : List (List Char)) (idx : Nat) (b : Bool)
    (h : Heading), h ∈ scanHeadings lines idx b → 1 ≤ h.level := by
  intro lines
  induction lines with
  | nil => intro idx b h hmem; simp [scanHeadings] at hmem
  | cons line rest ih =>
    intro idx b h hmem
    rw [scanHeadings] at hmem
    split_ifs at hmem with h1 h2
    · exact ih _ _ _ hmem
    · exact ih _ _ _ hmem
    · revert hmem
      split
      · next lvl txt heq =>
        intro hmem
        rcases List.mem_cons.mp hmem with hh | hh
        · subst hh
          exact (matchHeading_level_bounds heq).1
        · exact ih _ _ _ hh
      · next => exact ih _ _ _

/-- C1: the claim is FALSE as stated. For the document `# A\n#### B` (an H1
directly followed by an H4) the H4 entry is nested three `<ul>` levels below
the H1 entry, not one; and for heading levels `[1,3,2]` the level-3 entry
sits two levels below the level-1 entry (depth 4 versus 2), not directly
under it. -/
theorem toc_skip_level_nesting_cex :
    ((itemDepths (generateTOCtokens (extractHeadings (("# A\n#### B").data))) 0).map Prod.fst
        = [2, 5] ∧ ¬ (5 = 2 + 1))
    ∧ ((itemDepths (generateTOCtokens (extractHeadings (("# A\n### B\n## C").data))) 0).map Prod.fst
        = [2, 4, 3] ∧ ¬ (4 = 2 + 1)) := by
  constructor
  · constructor
    · rfl
    · decide
  · constructor
    · rfl
    · decide

/-- C1 (amended): the TOC construction nests every entry at a `<ul>` depth
equal to its heading level plus one (one for the outermost list), regardless
of its predecessors: a heading directly followed by a deeper heading nests
the deeper one once per skipped level (an H1 directly followed by an H4 nests
the H4 three levels below it), and for levels `[1,3,2]` the level-2 entry is
directly below the level-1 entry while the level-3 entry is two levels below
it — the level-3 and level-2 entries are still not nested under each other. -/
theorem toc_nesting_depth_eq_level (raw : List Char) :
    itemDepths (generateTOCtokens (extractHeadings raw)) 0
      = (extractHeadings raw).map (fun h => (h.level + 1, h.id)) := by
  have hlv : ∀ h ∈ extractHeadings raw, 1 ≤ h.level := by
    intro h hm
    exact scanHeadings_level_ge_one _ _ _ _ hm
  rw [generateTOCtokens]
  rw [show itemDepths (TocTok.openUL :: tocBody 0 (extractHeadings raw)) 0
        = itemDepths (tocBody 0 (extractHeadings raw)) 1 from rfl]
  exact itemDepths_tocBody _ 0 hlv

/-! ## Decimal printing: round-trip and injectivity -/

theorem natToDecimalAux_append : ∀ (fuel n : Nat) (acc : List Char), n < fuel →
    natToDecimalAux fuel n acc = natToDecimalAux fuel n [] ++ acc := by
  intro fuel
  induction fuel with
  | zero => intro n acc h; omega
  | succ f ih =>
    intro n acc h
    by_cases h10 : n < 10
    · simp [natToDecimalAux, h10]
    · rw [natToDecimalAux, if_neg h10, natToDecimalAux, if_neg h10]
      have hlt : n / 10 < f := by
        have := Nat.div_lt_self (by omega : 0 < n) (by omega : 1 < 10)
        omega
      rw [ih (n / 10) (digitChar (n % 10) :: acc) hlt, ih (n / 10) [digitChar (n % 10)] hlt]
      simp

theorem natToDecimalAux_fuel_irrel : ∀ (f1 f2 n : Nat), n < f1 → n < f2 →
    natToDecimalAux f1 n [] = natToDecimalAux f2 n [] := by
  intro f1
  induction f1 with
  | zero => intro f2 n h; omega
  | succ g ih =>
    intro f2 n h1 h2
    cases f2 with
    | zero => omega
    | succ k =>
      by_cases h10 : n < 10
      · simp [natToDecimalAux, h10]
      · rw [natToDecimalAux, if_neg h10, natToDecimalAux, if_neg h10]
        have hg : n / 10 < g := by
          have := Nat.div_lt_self (by omega : 0 < n) (by omega : 1 < 10)
          omega
        have hk : n / 10 < k := by
          have := Nat.div_lt_self (by omega : 0 < n) (by omega : 1 < 10)
          omega
        rw [natToDecimalAux_append g _ _ hg, natToDecimalAux_append k _ _ hk,
          ih k (n / 10) hg hk]

/-- Peeling the last digit off the decimal representation. -/
theorem natToDecimal_step (n : Nat) (h : 10 ≤ n) :
    natToDecimal n = natToDecimal (n / 10) ++ [digitChar (n % 10)] := by
  rw [natToDecimal, natToDecimalAux, if_neg (by omega)]
  have hlt : n / 10 < n := Nat.div_lt_self (by omega) (by omega)
  rw [natToDecimalAux_append n _ _ (by omega), natToDecimalAux_fuel_irrel n (n / 10 + 1) (n / 10)
    (by omega) (by omega)]
  rfl

theorem digitVal_digitChar (d : Nat) (h : d < 10) : digitVal (digitChar d) = d := by
  interval_cases d <;> rfl

theorem isDigit_digitChar (d : Nat) (h : d < 10) : (digitChar d).isDigit = true := by
  interval_cases d <;> rfl

theorem natToDecimal_lt_ten (n : Nat) (h : n < 10) : natToDecimal n = [digitChar n] := by
  rw [natToDecimal, natToDecimalAux, if_pos h]

/-- `parseInt` inverts decimal printing. -/
theorem digitsVal_natToDecimal (n : Nat) : digitsVal (natToDecimal n) = n := by
  induction n using Nat.strong_induction_on with
  | _ n ih =>
    by_cases h10 : n < 10
    · rw [natToDecimal_lt_ten n h10]
      simp [digitsVal, digitVal_digitChar n h10]
    · rw [natToDecimal_step n (by omega), digitsVal, List.foldl_append]
      have hlt : n / 10 < n := Nat.div_lt_self (by omega) (by omega)
      have := ih (n / 10) hlt
      rw [digitsVal] at this
      rw [this]
      simp only [List.foldl]
      rw [digitVal_digitChar (n % 10) (Nat.mod_lt n (by omega))]
      omega

theorem natToDecimal_injective : Function.Injective natToDecimal := by
  intro a b h
  have := congrArg digitsVal h
  rwa [digitsVal_natToDecimal, digitsVal_natToDecimal] at this

theorem natToDecimal_all_digits (n : Nat) : ∀ c ∈ natToDecimal n, c.isDigit = true := by
  induction n using Nat.strong_induction_on with
  | _ n ih =>
    by_cases h10 : n < 10
    · rw [natToDecimal_lt_ten n h10]
      intro c hc
      rw [List.mem_singleton] at hc
      subst hc
      exact isDigit_digitChar n h10
    · rw [natToDecimal_step n (by omega)]
      intro c hc
      rcases List.mem_append.mp hc with hc | hc
      · exact ih (n / 10) (Nat.div_lt_self (by omega) (by omega)) c hc
      · rw [List.mem_singleton] at hc
        subst hc
        exact isDigit_digitChar (n % 10) (Nat.mod_lt n (by omega))

theorem natToDecimal_ne_nil (n : Nat) : natToDecimal n ≠ [] := by
  by_cases h10 : n < 10
  · rw [natToDecimal_lt_ten n h10]; simp
  · rw [natToDecimal_step n (by omega)]; simp

/-! ## Heading id uniqueness (C6) -/

theorem scanHeadings_id_shape : ∀ (lines : List (List Char)) (idx : Nat) (b : Bool),
    ∀ h ∈ scanHeadings lines idx b, h.id = headingId h.text h.lineIndex := by
  intro lines
  induction lines with
  | nil => intro idx b h hm; simp [scanHeadings] at hm
  | cons line rest ih =>
    intro idx b h hm
    rw [scanHeadings] at hm
    split_ifs at hm with h1 h2
    · exact ih _ _ h hm
    · exact ih _ _ h hm
    · revert hm
      split
      · next lvl txt heq =>
        intro hm
        rcases List.mem_cons.mp hm with hh | hh
        · subst hh; rfl
        · exact ih _ _ h hh
      · next => exact ih _ _ h

theorem scanHeadings_lineIndex_mono : ∀ (lines : List (List Char)) (idx : Nat) (b : Bool),
    (∀ h ∈ scanHeadings lines idx b, idx ≤ h.lineIndex)
    ∧ List.Pairwise (fun a b => a.lineIndex < b.lineIndex) (scanHeadings lines idx b) := by
  intro lines
  induction lines with
  | nil => intro idx b; simp [scanHeadings]
  | cons line rest ih =>
    intro idx b
    rw [scanHeadings]
    split_ifs with h1 h2
    · refine ⟨fun h hm => ?_, (ih (idx + 1) (!b)).2⟩
      have := (ih (idx + 1) (!b)).1 h hm
      omega
    · refine ⟨fun h hm => ?_, (ih (idx + 1) b).2⟩
      have := (ih (idx + 1) b).1 h hm
      omega
    · split
      · next lvl txt heq =>
        constructor
        · intro h hm
          rcases List.mem_cons.mp hm with hh | hh
          · subst hh; simp [mkHeading]
          · have := (ih (idx + 1) b).1 h hh
            omega
        · refine List.pairwise_cons.mpr ⟨fun h hm => ?_, (ih (idx + 1) b).2⟩
          have := (ih (idx + 1) b).1 h hm
          simp [mkHeading]
          omega
      · next =>
        refine ⟨fun h hm => ?_, (ih (idx + 1) b).2⟩
        have := (ih (idx + 1) b).1 h hm
        omega

/-- C6: headings with identical text still get pairwise-distinct ids, because
the id ends with the decimal source line index, and the scanner produces
strictly increasing line indices. -/
theorem heading_ids_distinct (raw : List Char) (i j : Nat)
    (hi : i < (extractHeadings raw).length) (hj : j < (extractHeadings raw).length)
    (hne : i ≠ j)
    (htext : ((extractHeadings raw).get ⟨i, hi⟩).text = ((extractHeadings raw).get ⟨j, hj⟩).text) :
    ((extractHeadings raw).get ⟨i, hi⟩).id ≠ ((extractHeadings raw).get ⟨j, hj⟩).id := by
  intro hid
  set h1 := (extractHeadings raw).get ⟨i, hi⟩ with e1
  set h2 := (extractHeadings raw).get ⟨j, hj⟩ with e2
  have hm1 : h1 ∈ extractHeadings raw := List.get_mem _ _ _
  have hm2 : h2 ∈ extractHeadings raw := List.get_mem _ _ _
  have hs1 : h1.id = headingId h1.text h1.lineIndex := scanHeadings_id_shape _ _ _ h1 hm1
  have hs2 : h2.id = headingId h2.text h2.lineIndex := scanHeadings_id_shape _ _ _ h2 hm2
  have hidx : h1.lineIndex = h2.lineIndex := by
    rw [hs1, hs2, htext] at hid
    unfold headingId at hid
    rw [List.append_right_inj, List.cons_inj_right] at hid
    exact natToDecimal_injective hid
  have hpw : List.Pairwise (fun a b => a.lineIndex < b.lineIndex) (extractHeadings raw) :=
    (scanHeadings_lineIndex_mono (splitLines raw) 0 false).2
  rw [List.pairwise_iff_get] at hpw
  rcases Nat.lt_or_ge i j with hij | hij
  · have hlt := hpw ⟨i, hi⟩ ⟨j, hj⟩ hij
    rw [← e1, ← e2] at hlt
    omega
  · have hij' : j < i := by omega
    have hlt := hpw ⟨j, hj⟩ ⟨i, hi⟩ hij'
    rw [← e1, ← e2] at hlt
    omega

/-- Witness for C6 at a concrete document with two identically-texted
headings. -/
theorem heading_ids_distinct_witness :
    ((extractHeadings (("# X\n# X").data)).get ⟨0, by decide⟩).id
      ≠ ((extractHeadings (("# X\n# X").data)).get ⟨1, by decide⟩).id :=
  heading_ids_distinct (("# X\n# X").data) 0 1 (by decide) (by decide) (by decide) (by decide)

/-! ## Code-fence awareness (C5) -/

theorem scanHeadings_cons_fence {line : List Char} {rest : List (List Char)} {idx : Nat}
    {b : Bool} (h : isFence line = true) :
    scanHeadings (line :: rest) idx b = scanHeadings rest (idx + 1) (!b) := by
  rw [scanHeadings, if_pos h]

theorem scanHeadings_cons_inside {line : List Char} {rest : List (List Char)} {idx : Nat}
    (h : isFence line = false) :
    scanHeadings (line :: rest) idx true = scanHeadings rest (idx + 1) true := by
  rw [scanHeadings, if_neg (by simp [h]), if_pos rfl]

theorem scanHeadings_cons_match {line : List Char} {rest : List (List Char)} {idx : Nat}
    {lvl : Nat} {txt : List Char} (h : isFence line = false)
    (hm : matchHeading line = some (lvl, txt)) :
    scanHeadings (line :: rest) idx false
      = mkHeading lvl txt idx :: scanHeadings rest (idx + 1) false := by
  rw [scanHeadings, if_neg (by simp [h]), if_neg (by simp), hm]

theorem scanHeadings_cons_nomatch {line : List Char} {rest : List (List Char)} {idx : Nat}
    (h : isFence line = false) (hm : matchHeading line = none) :
    scanHeadings (line :: rest) idx false = scanHeadings rest (idx + 1) false := by
  rw [scanHeadings, if_neg (by simp [h]), if_neg (by simp), hm]

theorem scanHeadings_fence_spec : ∀ (lines : List (List Char)) (idx : Nat) (b : Bool)
    (i : Nat) (hi : i < lines.length),
    (isFence (lines.get ⟨i, hi⟩) = true →
      ∀ h ∈ scanHeadings lines idx b, h.lineIndex ≠ idx + i)
    ∧ (isFence (lines.get ⟨i, hi⟩) = false →
       (((lines.take i).countP isFence + cond b 1 0) % 2 = 1 →
         ∀ h ∈ scanHeadings lines idx b, h.lineIndex ≠ idx + i)
       ∧ (((lines.take i).countP isFence + cond b 1 0) % 2 = 0 →
         ∀ lvl txt, matchHeading (lines.get ⟨i, hi⟩) = some (lvl, txt) →
           mkHeading lvl txt (idx + i) ∈ scanHeadings lines idx b)) := by
  intro lines
  induction lines with
  | nil => intro idx b i hi; simp at hi
  | cons line rest ih =>
    intro idx b i hi
    cases i with
    | zero =>
      simp only [List.get]
      refine ⟨fun hf h hm => ?_, fun hf => ⟨fun hpar h hm => ?_, fun hpar lvl txt hmh => ?_⟩⟩
      · rw [scanHeadings_cons_fence hf] at hm
        have := (scanHeadings_lineIndex_mono rest (idx + 1) (!b)).1 h hm
        omega
      · cases b with
        | false => simp [List.countP, List.countP.go] at hpar
        | true =>
          rw [scanHeadings_cons_inside hf] at hm
          have := (scanHeadings_lineIndex_mono rest (idx + 1) true).1 h hm
          omega
      · cases b with
        | true => simp [List.countP, List.countP.go] at hpar
        | false =>
          rw [scanHeadings_cons_match hf hmh]
          simp
    | succ j =>
      have hj : j < rest.length := by simpa using hi
      have hget : (line :: rest).get ⟨j + 1, hi⟩ = rest.get ⟨j, hj⟩ := rfl
      have hcount : ((line :: rest).take (j + 1)).countP isFence
          = (if isFence line then 1 else 0) + (rest.take j).countP isFence := by
        rw [List.take_succ_cons, List.countP_cons]
        by_cases hf : isFence line
        · simp [hf]; omega
        · simp [hf]
      rw [hget, hcount]
      by_cases hf : isFence line = true
      · have ihr := ih (idx + 1) (!b) j hj
        rw [scanHeadings_cons_fence hf, if_pos hf]
        have hcond : ((1 + (rest.take j).countP isFence) + cond b 1 0) % 2
            = ((rest.take j).countP isFence + cond (!b) 1 0) % 2 := by
          cases b <;> simp [cond] <;> omega
        refine ⟨fun hfi h hm => ?_, fun hfi => ⟨fun hpar h hm => ?_, fun hpar lvl txt hmh => ?_⟩⟩
        · have := ihr.1 hfi h hm
          omega
        · rw [hcond] at hpar
          have := (ihr.2 hfi).1 hpar h hm
          omega
        · rw [hcond] at hpar
          have := (ihr.2 hfi).2 hpar lvl txt hmh
          have harith : idx + (j + 1) = (idx + 1) + j := by omega
          rw [harith]
          exact this
      · have hf' : isFence line = false := by simpa using hf
        rw [if_neg (by simp [hf'])]
        cases b with
        | true =>
          have ihr := ih (idx + 1) true j hj
          rw [scanHeadings_cons_inside hf']
          refine ⟨fun hfi h hm => ?_, fun hfi => ⟨fun hpar h hm => ?_, fun hpar lvl txt hmh => ?_⟩⟩
          · have := ihr.1 hfi h hm
            omega
          · have hpar' : ((rest.take j).countP isFence + cond true 1 0) % 2 = 1 := by
              simpa using hpar
            have := (ihr.2 hfi).1 hpar' h hm
            omega
          · have hpar' : ((rest.take j).countP isFence + cond true 1 0) % 2 = 0 := by
              simpa using hpar
            have := (ihr.2 hfi).2 hpar' lvl txt hmh
            have harith : idx + (j + 1) = (idx + 1) + j := by omega
            rw [harith]
            exact this
        | false =>
          have ihr := ih (idx + 1) false j hj
          have hcongr : ∀ (P : List Heading → Prop),
              P (scanHeadings rest (idx + 1) false) →
              P (scanHeadings rest (idx + 1) false) := fun _ p => p
          rcases hml : matchHeading line with _ | ⟨lvl0, txt0⟩
          · rw [scanHeadings_cons_nomatch hf' hml]
            refine ⟨fun hfi h hm => ?_, fun hfi => ⟨fun hpar h hm => ?_, fun hpar lvl txt hmh => ?_⟩⟩
            · have := ihr.1 hfi h hm
              omega
            · have hpar' : ((rest.take j).countP isFence + cond false 1 0) % 2 = 1 := by
                simpa using hpar
              have := (ihr.2 hfi).1 hpar' h hm
              omega
            · have hpar' : ((rest.take j).countP isFence + cond false 1 0) % 2 = 0 := by
                simpa using hpar
              have := (ihr.2 hfi).2 hpar' lvl txt hmh
              have harith : idx + (j + 1) = (idx + 1) + j := by omega
              rw [harith]
              exact this
          · rw [scanHeadings_cons_match hf' hml]
            refine ⟨fun hfi h hm => ?_, fun hfi => ⟨fun hpar h hm => ?_, fun hpar lvl txt hmh => ?_⟩⟩
            · rcases List.mem_cons.mp hm with hh | hh
              · subst hh
                simp [mkHeading]
              · have := ihr.1 hfi h hh
                omega
            · have hpar' : ((rest.take j).countP isFence + cond false 1 0) % 2 = 1 := by
                simpa using hpar
              rcases List.mem_cons.mp hm with hh | hh
              · subst hh
                simp [mkHeading]
              · have := (ihr.2 hfi).1 hpar' h hh
                omega
            · have hpar' : ((rest.take j).countP isFence + cond false 1 0) % 2 = 0 := by
                simpa using hpar
              have := (ihr.2 hfi).2 hpar' lvl txt hmh
              have harith : idx + (j + 1) = (idx + 1) + j := by omega
              rw [harith]
              exact List.mem_cons_of_mem _ this

/-- C5: a heading-pattern line between a fence-open line and its close (odd
number of fence lines before it) never yields a heading; the same line
outside any fence (even count) always does; and a fence line itself never
yields a heading. -/
theorem heading_fence_awareness (raw : List Char) (i : Nat)
    (hi : i < (splitLines raw).length) :
    (isFence ((splitLines raw).get ⟨i, hi⟩) = true →
      ∀ h ∈ extractHeadings raw, h.lineIndex ≠ i)
    ∧ (isFence ((splitLines raw).get ⟨i, hi⟩) = false →
       (((splitLines raw).take i).countP isFence % 2 = 1 →
         ∀ h ∈ extractHeadings raw, h.lineIndex ≠ i)
       ∧ (((splitLines raw).take i).countP isFence % 2 = 0 →
         ∀ lvl txt, matchHeading ((splitLines raw).get ⟨i, hi⟩) = some (lvl, txt) →
           mkHeading lvl txt i ∈ extractHeadings raw)) := by
  have := scanHeadings_fence_spec (splitLines raw) 0 false i hi
  simpa [extractHeadings, cond] using this

/-- Witness for C5: in `# A\n(fence)\n# B\n(fence)\n# C` the line `# B` (index
2, inside the fence) yields no heading, while `# C` (index 4, outside)
yields one. -/
theorem heading_fence_awareness_witness :
    (∀ h ∈ extractHeadings (("# A\n\x60\x60\x60\n# B\n\x60\x60\x60\n# C").data),
      h.lineIndex ≠ 2)
    ∧ mkHeading 1 (("C").data) 4
        ∈ extractHeadings (("# A\n\x60\x60\x60\n# B\n\x60\x60\x60\n# C").data) := by
  constructor
  · exact ((heading_fence_awareness (("# A\n\x60\x60\x60\n# B\n\x60\x60\x60\n# C").data) 2
      (by decide)).2 (by decide)).1 (by decide)
  · exact ((heading_fence_awareness (("# A\n\x60\x60\x60\n# B\n\x60\x60\x60\n# C").data) 4
      (by decide)).2 (by decide)).2 (by decide) 1 (("C").data) (by decide)

/-! ## Scanner infrastructure: every match consumes characters, and the
fuel-indexed scanners are fuel-irrelevant above the input length. -/

theorem splitAtDD_length : ∀ (l a b : List Char), splitAtDD l = some (a, b) →
    b.length + 2 ≤ l.length := by
  intro l
  induction l with
  | nil => intro a b h; simp [splitAtDD] at h
  | cons c t ih =>
    intro a b h
    cases t with
    | nil => simp [splitAtDD] at h
    | cons d t' =>
      rw [splitAtDD] at h
      split_ifs at h with hdd
      · simp only [Option.some.injEq, Prod.mk.injEq] at h
        obtain ⟨-, hb⟩ := h
        subst hb
        simp
      · rcases hsp : splitAtDD (d :: t') with _ | ⟨a', b'⟩ <;> rw [hsp] at h
        · simp at h
        · simp only [Option.some.injEq, Prod.mk.injEq] at h
          obtain ⟨-, hb⟩ := h
          subst hb
          have := ih a' b' hsp
          simp at this ⊢
          omega

theorem splitAtTicks_length : ∀ (l a b : List Char), splitAtTicks l = some (a, b) →
    b.length + 3 ≤ l.length := by
  intro l
  induction l with
  | nil => intro a b h; simp [splitAtTicks] at h
  | cons c t ih =>
    intro a b h
    cases t with
    | nil => simp [splitAtTicks] at h
    | cons d t' =>
      cases t' with
      | nil => simp [splitAtTicks] at h
      | cons e t'' =>
        rw [splitAtTicks] at h
        split_ifs at h with hdd
        · simp only [Option.some.injEq, Prod.mk.injEq] at h
          obtain ⟨-, hb⟩ := h
          subst hb
          simp
        · rcases hsp : splitAtTicks (d :: e :: t'') with _ | ⟨a', b'⟩ <;> rw [hsp] at h
          · simp at h
          · simp only [Option.some.injEq, Prod.mk.injEq] at h
            obtain ⟨-, hb⟩ := h
            subst hb
            have := ih a' b' hsp
            simp at this ⊢
            omega

theorem tryBlockMath_shrink : ∀ (cs : List Char) (b : PBlock) (r : List Char),
    tryBlockMath cs = some (b, r) → r.length < cs.length := by
  intro cs b r h
  match cs with
  | [] => simp [tryBlockMath] at h
  | [c] => simp [tryBlockMath] at h
  | c :: d :: t =>
    simp only [tryBlockMath] at h
    split_ifs at h with hdd
    split at h
    · exact Option.noConfusion h
    · next k hnl =>
      split at h
      · exact Option.noConfusion h
      · next code rest hsp =>
        simp only [Option.some.injEq, Prod.mk.injEq] at h
        obtain ⟨-, hb⟩ := h
        subst hb
        have h1 := splitAtDD_length _ _ _ hsp
        have h2 : (t.drop (k + 1)).length ≤ t.length := by
          rw [List.length_drop]; omega
        simp only [List.length_cons]
        omega

theorem tryInline_shrink : ∀ (cs : List Char) (b : PBlock) (r : List Char),
    tryInline cs = some (b, r) → r.length < cs.length := by
  intro cs b r h
  match cs with
  | [] => simp [tryInline] at h
  | c :: t =>
    simp only [tryInline] at h
    split_ifs at h with hc hrun
    split at h
    · next rest heq =>
      simp only [Option.some.injEq, Prod.mk.injEq] at h
      obtain ⟨-, hb⟩ := h
      subst hb
      have hlen := congrArg List.length heq
      rw [List.length_drop] at hlen
      simp only [List.length_cons] at hlen ⊢
      omega
    · exact Option.noConfusion h

theorem tryMermaid_shrink : ∀ (cs : List Char) (b : PBlock) (r : List Char),
    tryMermaid cs = some (b, r) → r.length < cs.length := by
  intro cs b r h
  simp only [tryMermaid] at h
  split_ifs at h with hpre
  have hlen : 10 ≤ cs.length := by
    have := List.IsPrefix.length_le ((isPrefixOf_eq _ _).mp hpre)
    simpa using this
  split at h
  · exact Option.noConfusion h
  · next k hnl =>
    split at h
    · exact Option.noConfusion h
    · next code rest hsp =>
      simp only [Option.some.injEq, Prod.mk.injEq] at h
      obtain ⟨-, hb⟩ := h
      subst hb
      have h1 := splitAtTicks_length _ _ _ hsp
      have h2 : ((cs.drop 10).drop (k + 1)).length ≤ cs.length - 10 := by
        rw [List.length_drop, List.length_drop]; omega
      omega

theorem tryPreserved_shrink : ∀ (cs : List Char) (k : Nat) (r : List Char),
    tryPreserved cs = some (k, r) → r.length < cs.length := by
  intro cs k r h
  simp only [tryPreserved] at h
  split_ifs at h with hpre hds
  have hlen : 14 ≤ cs.length := by
    have := List.IsPrefix.length_le ((isPrefixOf_eq _ _).mp hpre)
    simpa using this
  split at h
  · next rest heq =>
    simp only [Option.some.injEq, Prod.mk.injEq] at h
    obtain ⟨-, hb⟩ := h
    subst hb
    have hl := congrArg List.length heq
    rw [List.length_drop, List.length_drop] at hl
    simp only [List.length_cons] at hl ⊢
    omega
  · exact Option.noConfusion h

theorem scanReplaceF_irrel (try_ : List Char → Option (PBlock × List Char))
    (H : ∀ cs b r, try_ cs = some (b, r) → r.length < cs.length) :
    ∀ (f g : Nat) (cs : List Char) (bs : List PBlock), cs.length ≤ f → cs.length ≤ g →
      scanReplaceF try_ f cs bs = scanReplaceF try_ g cs bs := by
  intro f
  induction f with
  | zero =>
    intro g cs bs hf hg
    have : cs = [] := List.eq_nil_of_length_eq_zero (by omega)
    subst this
    cases g <;> rfl
  | succ n ih =>
    intro g cs bs hf hg
    cases cs with
    | nil => cases g <;> rfl
    | cons c cs' =>
      cases g with
      | zero => simp at hg
      | succ m =>
        rcases ht : try_ (c :: cs') with _ | ⟨b, rest⟩
        · have hrec := ih m cs' bs (by simpa using hf) (by simpa using hg)
          simp only [scanReplaceF, ht, hrec]
        · have hlt := H _ _ _ ht
          have hrec := ih m rest (bs ++ [b])
            (by simp at hf hlt ⊢; omega) (by simp at hg hlt ⊢; omega)
          simp only [scanReplaceF, ht, hrec]

theorem scanReplace_nil (try_ : List Char → Option (PBlock × List Char)) (bs : List PBlock) :
    scanReplace try_ [] bs = ([], bs) := rfl

theorem scanReplace_cons_none {try_ : List Char → Option (PBlock × List Char)}
    {c : Char} {cs : List Char} (bs : List PBlock) (h : try_ (c :: cs) = none) :
    scanReplace try_ (c :: cs) bs
      = ((c :: (scanReplace try_ cs bs).1), (scanReplace try_ cs bs).2) := by
  simp only [scanReplace, List.length_cons, scanReplaceF, h]

theorem scanReplace_cons_some {try_ : List Char → Option (PBlock × List Char)}
    (H : ∀ cs b r, try_ cs = some (b, r) → r.length < cs.length)
    {c : Char} {cs : List Char} {b : PBlock} {rest : List Char} (bs : List PBlock)
    (h : try_ (c :: cs) = some (b, rest)) :
    scanReplace try_ (c :: cs) bs
      = (placeholder bs.length ++ (scanReplace try_ rest (bs ++ [b])).1,
         (scanReplace try_ rest (bs ++ [b])).2) := by
  have hlt := H _ _ _ h
  simp only [List.length_cons] at hlt
  have hirr := scanReplaceF_irrel try_ H cs.length rest.length rest (bs ++ [b])
    (by omega) le_rfl
  simp only [scanReplace, List.length_cons, scanReplaceF, h, hirr]

theorem scanReplace_append_none {try_ : List Char → Option (PBlock × List Char)}
    {p : List Char} (r : List Char) (bs : List PBlock)
    (hp : ∀ c ∈ p, ∀ t, try_ (c :: t) = none) :
    scanReplace try_ (p ++ r) bs
      = (p ++ (scanReplace try_ r bs).1, (scanReplace try_ r bs).2) := by
  induction p with
  | nil => simp
  | cons c p' ih =>
    have hc := hp c (List.mem_cons_self _ _) (p' ++ r)
    rw [List.cons_append, scanReplace_cons_none bs hc,
      ih (fun x hx t => hp x (List.mem_cons_of_mem _ hx) t)]
    simp

theorem scanReplace_tails_none {try_ : List Char → Option (PBlock × List Char)}
    {cs : List Char} (bs : List PBlock) (h : ∀ t ∈ cs.tails, try_ t = none) :
    scanReplace try_ cs bs = (cs, bs) := by
  induction cs with
  | nil => rfl
  | cons c cs' ih =>
    have hself : try_ (c :: cs') = none := h _ (by simp [List.mem_tails])
    rw [scanReplace_cons_none bs hself, ih (fun t ht => h t (by
      simp only [List.mem_tails] at ht ⊢
      exact ht.trans (List.suffix_cons c cs')))]

theorem restoreScanF_irrel (bs : List PBlock) :
    ∀ (f g : Nat) (cs : List Char), cs.length ≤ f → cs.length ≤ g →
      restoreScanF bs f cs = restoreScanF bs g cs := by
  intro f
  induction f with
  | zero =>
    intro g cs hf hg
    have : cs = [] := List.eq_nil_of_length_eq_zero (by omega)
    subst this
    cases g <;> rfl
  | succ n ih =>
    intro g cs hf hg
    cases cs with
    | nil => cases g <;> rfl
    | cons c cs' =>
      cases g with
      | zero => simp at hg
      | succ m =>
        rcases ht : tryPreserved (c :: cs') with _ | ⟨k, rest⟩
        · have hrec := ih m cs' (by simpa using hf) (by simpa using hg)
          simp only [restoreScanF, ht, hrec]
        · have hlt := tryPreserved_shrink _ _ _ ht
          simp only [List.length_cons] at hlt
          have hrec := ih m rest (by simp at hf ⊢; omega) (by simp at hg ⊢; omega)
          simp only [restoreScanF, ht, hrec]

theorem restoreScan_nil (bs : List PBlock) : restoreScan bs [] = Except.ok [] := rfl

theorem restoreScan_cons_none {c : Char} {cs : List Char} (bs : List PBlock)
    (h : tryPreserved (c :: cs) = none) :
    restoreScan bs (c :: cs) = (restoreScan bs cs).map (fun o => c :: o) := by
  simp only [restoreScan, List.length_cons, restoreScanF, h]

theorem restoreScan_cons_some_in {c : Char} {cs : List Char} {k : Nat} {rest : List Char}
    (bs : List PBlock) (h : tryPreserved (c :: cs) = some (k, rest)) (hk : k < bs.length) :
    restoreScan bs (c :: cs)
      = (restoreScan bs rest).map (fun o => (bs.get ⟨k, hk⟩).content ++ o) := by
  have hlt := tryPreserved_shrink _ _ _ h
  simp only [List.length_cons] at hlt
  have hirr := restoreScanF_irrel bs cs.length rest.length rest (by omega) le_rfl
  have hget : bs[k]? = some (bs.get ⟨k, hk⟩) := by
    rw [List.getElem?_eq_getElem hk]
    rfl
  simp only [restoreScan, List.length_cons, restoreScanF, h, hget, hirr]

theorem restoreScan_cons_some_out {c : Char} {cs : List Char} {k : Nat} {rest : List Char}
    (bs : List PBlock) (h : tryPreserved (c :: cs) = some (k, rest)) (hk : bs.length ≤ k) :
    restoreScan bs (c :: cs) = Except.error () := by
  have hget : bs[k]? = none := by
    rw [List.getElem?_eq_none]
    omega
  simp only [restoreScan, List.length_cons, restoreScanF, h, hget]

theorem restoreScan_append_none {p : List Char} (r : List Char) (bs : List PBlock)
    (hp : ∀ c ∈ p, ∀ t, tryPreserved (c :: t) = none) :
    restoreScan bs (p ++ r) = (restoreScan bs r).map (fun o => p ++ o) := by
  induction p with
  | nil =>
    simp only [List.nil_append]
    cases restoreScan bs r <;> simp [Except.map]
  | cons c p' ih =>
    have hc := hp c (List.mem_cons_self _ _) (p' ++ r)
    rw [List.cons_append, restoreScan_cons_none bs hc,
      ih (fun x hx t => hp x (List.mem_cons_of_mem _ hx) t)]
    cases restoreScan bs r <;> simp [Except.map]

theorem restoreScan_tails_none {cs : List Char} (bs : List PBlock)
    (h : ∀ t ∈ cs.tails, tryPreserved t = none) :
    restoreScan bs cs = Except.ok cs := by
  induction cs with
  | nil => rfl
  | cons c cs' ih =>
    have hself : tryPreserved (c :: cs') = none := h _ (by simp [List.mem_tails])
    rw [restoreScan_cons_none bs hself,
      ih (fun t ht => h t (by
        simp only [List.mem_tails] at ht ⊢
        exact ht.trans (List.suffix_cons c cs')))]
    rfl

/-! ## Matcher behavior at specific inputs -/

theorem tails_none_of_heads {α : Type} {try_ : List Char → Option α} {s : List Char}
    (hnil : try_ [] = none) (hhead : ∀ c ∈ s, ∀ t, try_ (c :: t) = none) :
    ∀ t ∈ s.tails, try_ t = none := by
  intro t ht
  rw [List.mem_tails] at ht
  obtain ⟨pre, hpre⟩ := ht
  cases t with
  | nil => exact hnil
  | cons c t' =>
    have hc : c ∈ s := by
      rw [← hpre]
      exact List.mem_append_right _ (List.mem_cons_self _ _)
    exact hhead c hc t'

theorem tryBlockMath_nil : tryBlockMath [] = none := rfl

theorem tryBlockMath_one (c : Char) : tryBlockMath [c] = none := rfl

theorem tryBlockMath_ne2 {c d : Char} (h : ¬(c = '$' ∧ d = '$')) (t : List Char) :
    tryBlockMath (c :: d :: t) = none := by
  simp only [tryBlockMath]
  rw [if_neg h]

theorem tryBlockMath_head_ne {c : Char} (h : c ≠ '$') : ∀ t, tryBlockMath (c :: t) = none := by
  intro t
  cases t with
  | nil => rfl
  | cons d t' => exact tryBlockMath_ne2 (fun hx => h hx.1) t'

theorem tryInline_nil : tryInline [] = none := rfl

theorem tryInline_head_ne {c : Char} (h : c ≠ '$') (t : List Char) :
    tryInline (c :: t) = none := by
  simp only [tryInline]
  rw [if_neg h]

theorem tryMermaid_nil : tryMermaid [] = none := rfl

theorem tryMermaid_head_ne {c : Char} (h : c ≠ '\x60') (t : List Char) :
    tryMermaid (c :: t) = none := by
  rw [tryMermaid, if_neg]
  intro hpre
  rw [isPrefixOf_eq] at hpre
  obtain ⟨r, hr⟩ := hpre
  rw [show ("\x60\x60\x60mermaid").data = '\x60' :: ("\x60\x60mermaid").data from rfl,
    List.cons_append] at hr
  injection hr with h1 _
  exact h h1.symm

theorem tryPreserved_nil : tryPreserved [] = none := rfl

theorem tryPreserved_head_ne {c : Char} (h : c ≠ '<') (t : List Char) :
    tryPreserved (c :: t) = none := by
  rw [tryPreserved, if_neg]
  intro hpre
  rw [isPrefixOf_eq] at hpre
  obtain ⟨r, hr⟩ := hpre
  rw [show ("<!--PRESERVED_").data = '<' :: ("!--PRESERVED_").data from rfl,
    List.cons_append] at hr
  injection hr with h1 _
  exact h h1.symm

theorem isDigit_ne {c : Char} (h : c.isDigit = true) :
    c ≠ '$' ∧ c ≠ '\x60' ∧ c ≠ '<' := by
  refine ⟨?_, ?_, ?_⟩ <;> intro he <;> subst he <;> exact absurd h (by decide)

theorem placeholder_chars (i : Nat) : ∀ c ∈ placeholder i, c ≠ '$' ∧ c ≠ '\x60' := by
  intro c hc
  rw [placeholder] at hc
  rcases List.mem_append.mp hc with hc1 | hc2
  · rcases List.mem_append.mp hc1 with hc3 | hc4
    · fin_cases hc3 <;> exact ⟨by decide, by decide⟩
    · have := natToDecimal_all_digits i c hc4
      exact ⟨(isDigit_ne this).1, (isDigit_ne this).2.1⟩
  · fin_cases hc2 <;> exact ⟨by decide, by decide⟩

/-- The three extraction passes leave any text without their trigger
character untouched. -/
theorem blockPass_id_of_no_dollar {cs : List Char} (bs : List PBlock)
    (h : ∀ c ∈ cs, c ≠ '$') : scanReplace tryBlockMath cs bs = (cs, bs) :=
  scanReplace_tails_none bs
    (tails_none_of_heads tryBlockMath_nil (fun c hc t => tryBlockMath_head_ne (h c hc) t))

theorem inlinePass_id_of_no_dollar {cs : List Char} (bs : List PBlock)
    (h : ∀ c ∈ cs, c ≠ '$') : scanReplace tryInline cs bs = (cs, bs) :=
  scanReplace_tails_none bs
    (tails_none_of_heads tryInline_nil (fun c hc t => tryInline_head_ne (h c hc) t))

theorem mermaidPass_id_of_no_tick {cs : List Char} (bs : List PBlock)
    (h : ∀ c ∈ cs, c ≠ '\x60') : scanReplace tryMermaid cs bs = (cs, bs) :=
  scanReplace_tails_none bs
    (tails_none_of_heads tryMermaid_nil (fun c hc t => tryMermaid_head_ne (h c hc) t))

theorem restore_id_of_no_lt {cs : List Char} (bs : List PBlock)
    (h : ∀ c ∈ cs, c ≠ '<') : restoreScan bs cs = Except.ok cs :=
  restoreScan_tails_none bs
    (tails_none_of_heads tryPreserved_nil (fun c hc t => tryPreserved_head_ne (h c hc) t))

theorem takeWhile_append_all {p : Char → Bool} :
    ∀ (a : List Char) (c0 : Char) (bs : List Char), (∀ c ∈ a, p c = true) → p c0 = false →
      List.takeWhile p (a ++ c0 :: bs) = a := by
  intro a
  induction a with
  | nil => intro c0 bs _ hc0; simp [List.takeWhile_cons, hc0]
  | cons x a' ih =>
    intro c0 bs ha hc0
    rw [List.cons_append, List.takeWhile_cons, ha x (List.mem_cons_self _ _),
      ih c0 bs (fun c hc => ha c (List.mem_cons_of_mem _ hc)) hc0]
    simp

theorem splitAtDD_append : ∀ (a b : List Char), (∀ c ∈ a, c ≠ '$') →
    splitAtDD (a ++ '$' :: '$' :: b) = some (a, b) := by
  intro a
  induction a with
  | nil => intro b _; simp [splitAtDD]
  | cons x a' ih =>
    intro b ha
    have hx : x ≠ '$' := ha x (List.mem_cons_self _ _)
    have hrec := ih b (fun c hc => ha c (List.mem_cons_of_mem _ hc))
    cases a' with
    | nil =>
      simp only [List.cons_append, List.nil_append, splitAtDD]
      rw [if_neg (fun hx2 => hx hx2.1)]
      simp
    | cons y a'' =>
      simp only [List.cons_append, splitAtDD]
      rw [if_neg (fun hx2 => hx hx2.1)]
      simp only [List.cons_append] at hrec
      show (match splitAtDD (y :: (a'' ++ '$' :: '$' :: b)) with
        | some (a, b) => some (x :: a, b)
        | none => none) = some (x :: y :: a'', b)
      rw [hrec]

/-- The block-math matcher at the start of a well-formed region
`$$` + newline + code + `$$`: the code must not contain `$` (the lazy group
stops at the first `$$`) and must not begin with whitespace (otherwise the
greedy `\s*\n` consumes differently). -/
theorem tryBlockMath_at_region (code s : List Char) (hcode : ∀ c ∈ code, c ≠ '$')
    (hhead : ∀ c, code.head? = some c → isJsWs c = false) :
    tryBlockMath ('$' :: '$' :: '\n' :: (code ++ '$' :: '$' :: s))
      = some (⟨BlockType.mathBlock, '$' :: '$' :: '\n' :: (code ++ ['$', '$'])⟩, s) := by
  have hw : ('\n' :: (code ++ '$' :: '$' :: s)).takeWhile isJsWs = ['\n'] := by
    rw [List.takeWhile_cons]
    have h1 : isJsWs '\n' = true := by decide
    rw [h1]
    cases code with
    | nil =>
      simp [List.takeWhile_cons]
      decide
    | cons c0 code' =>
      have h2 : isJsWs c0 = false := hhead c0 rfl
      rw [List.cons_append, List.takeWhile_cons, h2]
      simp
  simp only [tryBlockMath]
  rw [if_pos (by simp)]
  simp only [hw]
  rw [show lastNlIdx ['\n'] = some 0 from rfl]
  simp only [List.drop_succ_cons, List.drop_zero]
  rw [splitAtDD_append code s hcode]

/-! ## Pass composition on a protected block-math region -/

theorem blockPass_region (p code s : List Char)
    (hp : ∀ c ∈ p, c ≠ '$') (hs : ∀ c ∈ s, c ≠ '$')
    (hcode : ∀ c ∈ code, c ≠ '$') (hhead : ∀ c, code.head? = some c → isJsWs c = false) :
    scanReplace tryBlockMath (p ++ '$' :: '$' :: '\n' :: (code ++ '$' :: '$' :: s)) []
      = (p ++ placeholder 0 ++ s,
         [⟨BlockType.mathBlock, '$' :: '$' :: '\n' :: (code ++ ['$', '$'])⟩]) := by
  rw [scanReplace_append_none _ [] (fun c hc t => tryBlockMath_head_ne (hp c hc) t),
    scanReplace_cons_some tryBlockMath_shrink [] (tryBlockMath_at_region code s hcode hhead),
    blockPass_id_of_no_dollar _ hs]
  simp [List.append_assoc]

theorem extractBlocks_region (p code s : List Char)
    (hp : ∀ c ∈ p, c ≠ '$' ∧ c ≠ '\x60') (hs : ∀ c ∈ s, c ≠ '$' ∧ c ≠ '\x60')
    (hcode : ∀ c ∈ code, c ≠ '$') (hhead : ∀ c, code.head? = some c → isJsWs c = false) :
    extractBlocks (p ++ '$' :: '$' :: '\n' :: (code ++ '$' :: '$' :: s))
      = (p ++ placeholder 0 ++ s,
         [⟨BlockType.mathBlock, '$' :: '$' :: '\n' :: (code ++ ['$', '$'])⟩]) := by
  have hmemd : ∀ c ∈ p ++ placeholder 0 ++ s, c ≠ '$' := by
    intro c hc
    rcases List.mem_append.mp hc with hc1 | hc2
    · rcases List.mem_append.mp hc1 with hc3 | hc4
      · exact (hp c hc3).1
      · exact (placeholder_chars 0 c hc4).1
    · exact (hs c hc2).1
  have hmemt : ∀ c ∈ p ++ placeholder 0 ++ s, c ≠ '\x60' := by
    intro c hc
    rcases List.mem_append.mp hc with hc1 | hc2
    · rcases List.mem_append.mp hc1 with hc3 | hc4
      · exact (hp c hc3).2
      · exact (placeholder_chars 0 c hc4).2
    · exact (hs c hc2).2
  simp only [extractBlocks,
    blockPass_region p code s (fun c hc => (hp c hc).1) (fun c hc => (hs c hc).1) hcode hhead,
    inlinePass_id_of_no_dollar _ hmemd, mermaidPass_id_of_no_tick _ hmemt]

/-- C7: the extraction passes run in the fixed order block-math, inline-math,
diagram (`extractBlocks` applies them in exactly that sequence), and a region
`$$` + newline + content + `$$` is captured entirely by the block-math pass:
the pass replaces it with the placeholder and records one `math-block` entry;
the subsequent inline-math pass finds no match at all (the region's interior
has already been replaced by the placeholder), recording no `math-inline`
entry. -/
theorem extraction_order_block_before_inline (p code s : List Char)
    (hp : ∀ c ∈ p, c ≠ '$' ∧ c ≠ '\x60') (hs : ∀ c ∈ s, c ≠ '$' ∧ c ≠ '\x60')
    (hcode : ∀ c ∈ code, c ≠ '$') (hhead : ∀ c, code.head? = some c → isJsWs c = false) :
    (scanReplace tryBlockMath (p ++ '$' :: '$' :: '\n' :: (code ++ '$' :: '$' :: s)) []
       = (p ++ placeholder 0 ++ s,
          [⟨BlockType.mathBlock, '$' :: '$' :: '\n' :: (code ++ ['$', '$'])⟩]))
    ∧ (scanReplace tryInline (p ++ placeholder 0 ++ s)
         [⟨BlockType.mathBlock, '$' :: '$' :: '\n' :: (code ++ ['$', '$'])⟩]
       = (p ++ placeholder 0 ++ s,
          [⟨BlockType.mathBlock, '$' :: '$' :: '\n' :: (code ++ ['$', '$'])⟩]))
    ∧ extractBlocks (p ++ '$' :: '$' :: '\n' :: (code ++ '$' :: '$' :: s))
        = (p ++ placeholder 0 ++ s,
           [⟨BlockType.mathBlock, '$' :: '$' :: '\n' :: (code ++ ['$', '$'])⟩]) := by
  have hmemd : ∀ c ∈ p ++ placeholder 0 ++ s, c ≠ '$' := by
    intro c hc
    rcases List.mem_append.mp hc with hc1 | hc2
    · rcases List.mem_append.mp hc1 with hc3 | hc4
      · exact (hp c hc3).1
      · exact (placeholder_chars 0 c hc4).1
    · exact (hs c hc2).1
  exact ⟨blockPass_region p code s (fun c hc => (hp c hc).1) (fun c hc => (hs c hc).1)
      hcode hhead,
    inlinePass_id_of_no_dollar _ hmemd,
    extractBlocks_region p code s hp hs hcode hhead⟩

/-- Witness for C7 at the spec's example `$$\nE=mc^2\n$$` in context. -/
theorem extraction_order_block_before_inline_witness :
    extractBlocks ((("a ").data) ++ '$' :: '$' :: '\n' :: (((("E=mc^2\n").data))
        ++ '$' :: '$' :: (((" b").data))))
      = ((("a ").data) ++ placeholder 0 ++ ((" b").data),
         [⟨BlockType.mathBlock, '$' :: '$' :: '\n' :: ((("E=mc^2\n").data) ++ ['$', '$'])⟩]) :=
  (extraction_order_block_before_inline (("a ").data) (("E=mc^2\n").data) ((" b").data)
    (by decide) (by decide) (by decide) (by decide)).2.2

/-! ## Round trip without protected syntax (C4) -/

/-- C4: the claim is FALSE as stated. The text `<!--PRESERVED_0-->` contains
no protected syntax, yet extraction followed by restoration (with the
identity renderer) does not return it: the restoration callback dereferences
`preservedBlocks[0]`, which is undefined because nothing was extracted, and
throws. -/
theorem roundtrip_cex :
    noProtectedSyntax (("<!--PRESERVED_0-->").data)
    ∧ extractRestoreId (("<!--PRESERVED_0-->").data) = Except.error ()
    ∧ extractRestoreId (("<!--PRESERVED_0-->").data)
        ≠ Except.ok ((("<!--PRESERVED_0-->").data)) := by
  refine ⟨by decide, rfl, ?_⟩
  intro h
  rw [show extractRestoreId (("<!--PRESERVED_0-->").data) = Except.error () from rfl] at h
  exact Except.noConfusion h

/-- C4 (amended): for any text containing no protected syntax *and no
placeholder-shaped comment `<!--PRESERVED_<digits>-->`*, extraction followed
by restoration with the identity renderer returns the original text
unchanged. -/
theorem extract_restore_roundtrip (raw : List Char) (h1 : noProtectedSyntax raw)
    (h2 : noPlaceholderComment raw) : extractRestoreId raw = Except.ok raw := by
  have hb : scanReplace tryBlockMath raw [] = (raw, []) :=
    scanReplace_tails_none [] (fun t ht => (h1 t ht).1)
  have hi : scanReplace tryInline raw [] = (raw, []) :=
    scanReplace_tails_none [] (fun t ht => (h1 t ht).2.1)
  have hm : scanReplace tryMermaid raw [] = (raw, []) :=
    scanReplace_tails_none [] (fun t ht => (h1 t ht).2.2)
  have hr : restoreScan [] raw = Except.ok raw := restoreScan_tails_none [] h2
  simp only [extractRestoreId, extractBlocks, hb, hi, hm, hr]

/-- Witness for C4 (amended) at plain text. -/
theorem extract_restore_roundtrip_witness :
    extractRestoreId (("hello world").data) = Except.ok ((("hello world").data)) :=
  extract_restore_roundtrip (("hello world").data) (by decide) (by decide)

/-! ## Restoration at a placeholder comment -/

theorem tryPreserved_at_placeholder (k : Nat) (rest : List Char) :
    tryPreserved (placeholder k ++ rest) = some (k, rest) := by
  have hshape : placeholder k ++ rest
      = ("<!--PRESERVED_").data ++ (natToDecimal k ++ ('-' :: '-' :: '>' :: rest)) := by
    rw [placeholder]
    simp [List.append_assoc]
  rw [hshape, tryPreserved, if_pos]
  · have hdrop : ((("<!--PRESERVED_").data) ++ (natToDecimal k ++ ('-' :: '-' :: '>' :: rest))).drop 14
        = natToDecimal k ++ ('-' :: '-' :: '>' :: rest) := by
      have h14 : (("<!--PRESERVED_").data).length = 14 := rfl
      rw [← h14, List.drop_left]
    have hds : List.takeWhile Char.isDigit (natToDecimal k ++ ('-' :: '-' :: '>' :: rest))
        = natToDecimal k :=
      takeWhile_append_all _ _ _ (natToDecimal_all_digits k) (by decide)
    have hemp : (natToDecimal k).isEmpty = false := by
      cases h : natToDecimal k with
      | nil => exact absurd h (natToDecimal_ne_nil k)
      | cons a l => simp
    have hdrop2 : (natToDecimal k ++ ('-' :: '-' :: '>' :: rest)).drop (natToDecimal k).length
        = '-' :: '-' :: '>' :: rest := List.drop_left _ _
    simp only [hdrop, hds, hemp, hdrop2, Bool.false_eq_true, if_false,
      digitsVal_natToDecimal]
  · rw [isPrefixOf_eq]
    exact List.prefix_append _ _

theorem placeholder_cons (k : Nat) (s : List Char) :
    placeholder k ++ s
      = '<' :: ((("!--PRESERVED_").data) ++ (natToDecimal k ++ ((("-->").data) ++ s))) := by
  rw [placeholder,
    show ("<!--PRESERVED_").data = '<' :: ("!--PRESERVED_").data from rfl]
  simp [List.append_assoc]

theorem restoreScan_at_placeholder_in (bs : List PBlock) (k : Nat) (s : List Char)
    (hk : k < bs.length) (hs : ∀ c ∈ s, c ≠ '<') :
    restoreScan bs (placeholder k ++ s) = Except.ok ((bs.get ⟨k, hk⟩).content ++ s) := by
  have hmatch : tryPreserved ('<' :: ((("!--PRESERVED_").data)
      ++ (natToDecimal k ++ ((("-->").data) ++ s)))) = some (k, s) := by
    rw [← placeholder_cons]
    exact tryPreserved_at_placeholder k s
  rw [placeholder_cons, restoreScan_cons_some_in bs hmatch hk, restore_id_of_no_lt bs hs]
  rfl

theorem restoreScan_at_placeholder_out (bs : List PBlock) (k : Nat) (s : List Char)
    (hk : bs.length ≤ k) :
    restoreScan bs (placeholder k ++ s) = Except.error () := by
  have hmatch : tryPreserved ('<' :: ((("!--PRESERVED_").data)
      ++ (natToDecimal k ++ ((("-->").data) ++ s)))) = some (k, s) := by
    rw [← placeholder_cons]
    exact tryPreserved_at_placeholder k s
  rw [placeholder_cons, restoreScan_cons_some_out bs hmatch hk]

/-! ## Verbatim restoration of math regions (C3) -/

theorem tryBlockMath_dollar_head_ne {s : List Char}
    (h : ∀ c, s.head? = some c → c ≠ '$') : tryBlockMath ('$' :: s) = none := by
  cases s with
  | nil => rfl
  | cons c s' => exact tryBlockMath_ne2 (fun hx => h c rfl hx.2) s'

theorem tryInline_at_region (w s : List Char) (hw : w ≠ [])
    (hwc : ∀ c ∈ w, c ≠ '$' ∧ c ≠ '\n') :
    tryInline ('$' :: (w ++ '$' :: s))
      = some (⟨BlockType.mathInline, '$' :: (w ++ ['$'])⟩, s) := by
  simp only [tryInline]
  rw [if_pos trivial]
  have hrun : (w ++ '$' :: s).takeWhile (fun c => !(c = '$' || c = '\n')) = w :=
    takeWhile_append_all w '$' s
      (fun c hc => by simp [(hwc c hc).1, (hwc c hc).2]) (by decide)
  have hemp : w.isEmpty = false := by
    cases w with
    | nil => exact absurd rfl hw
    | cons a l => simp
  have hd : (w ++ '$' :: s).drop w.length = '$' :: s := List.drop_left _ _
  simp only [hrun, hemp, Bool.false_eq_true, if_false, hd]

/-- C3: the claim is FALSE as stated. The greedy `\s*\n` of the block-math
pattern consumes the whole whitespace run after the opening `$$` through its
last newline, and the extraction callback rebuilds the stored content as
`$$\n` + captured code + `$$`, so that run is normalized to a single newline.
Two instances: in `x $$ \nE\n$$ y` the region `$$ \nE\n$$` (a space between
the opening `$$` and the newline) comes back as `$$\nE\n$$`; and in
`x $$\n \nE\n$$ y` — where the opening `$$` *is* immediately followed by a
newline but the content begins with whitespace holding a further newline —
the region `$$\n \nE\n$$` also comes back as `$$\nE\n$$`. In both cases the
restored output no longer contains the original region verbatim. -/
theorem math_verbatim_cex :
    ((("$$ \nE\n$$").data) <:+: (("x $$ \nE\n$$ y").data)
      ∧ extractRestoreId (("x $$ \nE\n$$ y").data) = Except.ok ((("x $$\nE\n$$ y").data))
      ∧ ¬ (("$$ \nE\n$$").data) <:+: (("x $$\nE\n$$ y").data))
    ∧ ((("$$\n \nE\n$$").data) <:+: (("x $$\n \nE\n$$ y").data)
      ∧ extractRestoreId (("x $$\n \nE\n$$ y").data) = Except.ok ((("x $$\nE\n$$ y").data))
      ∧ ¬ (("$$\n \nE\n$$").data) <:+: (("x $$\nE\n$$ y").data)) := by
  exact ⟨⟨by decide, rfl, by decide⟩, ⟨by decide, rfl, by decide⟩⟩

/-- C3 (amended): inline-math regions are restored verbatim with their
delimiters; block-math regions are restored verbatim *provided the whitespace
between the opening `$$` and the content is exactly one newline* — that is,
the opening `$$` is immediately followed by a newline and the content does
not itself begin with whitespace. Otherwise the greedy `\s*\n` consumes the
whole whitespace run through its last newline and the callback normalizes it
to a single newline, so the original substring does not reappear (see both
instances in `math_verbatim_cex`). The first conjunct's hypotheses state
exactly this: the region is `$$` + `\n` + code + `$$` with `code` not
beginning with whitespace (`hhead`). With the identity renderer the whole
text round-trips, so in particular the region appears verbatim in the
output. The context and content hypotheses keep the region the only
protected syntax in the text. -/
theorem math_regions_restored (p s : List Char)
    (hp : ∀ c ∈ p, c ≠ '$' ∧ c ≠ '\x60' ∧ c ≠ '<')
    (hs : ∀ c ∈ s, c ≠ '$' ∧ c ≠ '\x60' ∧ c ≠ '<') :
    (∀ code, (∀ c ∈ code, c ≠ '$') → (∀ c, code.head? = some c → isJsWs c = false) →
      extractRestoreId (p ++ '$' :: '$' :: '\n' :: (code ++ '$' :: '$' :: s))
        = Except.ok (p ++ '$' :: '$' :: '\n' :: (code ++ '$' :: '$' :: s)))
    ∧ (∀ w, w ≠ [] → (∀ c ∈ w, c ≠ '$' ∧ c ≠ '\n') →
      extractRestoreId (p ++ '$' :: (w ++ '$' :: s))
        = Except.ok (p ++ '$' :: (w ++ '$' :: s))) := by
  constructor
  · intro code hcode hhead
    simp only [extractRestoreId,
      extractBlocks_region p code s (fun c hc => ⟨(hp c hc).1, (hp c hc).2.1⟩)
        (fun c hc => ⟨(hs c hc).1, (hs c hc).2.1⟩) hcode hhead]
    rw [List.append_assoc,
      restoreScan_append_none _ _ (fun c hc t => tryPreserved_head_ne ((hp c hc).2.2) t),
      restoreScan_at_placeholder_in _ 0 s (by simp) (fun c hc => (hs c hc).2.2)]
    simp [Except.map, List.append_assoc]
  · intro w hw hwc
    obtain ⟨w0, w', rfl⟩ : ∃ w0 w', w = w0 :: w' := by
      cases w with
      | nil => exact absurd rfl hw
      | cons a b => exact ⟨a, b, rfl⟩
    have hbp : scanReplace tryBlockMath (p ++ '$' :: ((w0 :: w') ++ '$' :: s)) []
        = (p ++ '$' :: ((w0 :: w') ++ '$' :: s), []) := by
      rw [scanReplace_append_none _ []
        (fun c hc t => tryBlockMath_head_ne ((hp c hc).1) t)]
      rw [show ('$' :: ((w0 :: w') ++ '$' :: s)) = '$' :: w0 :: (w' ++ '$' :: s) from rfl,
        scanReplace_cons_none []
          (tryBlockMath_ne2 (fun hx => (hwc w0 (List.mem_cons_self _ _)).1 hx.2) _)]
      rw [show (w0 :: (w' ++ '$' :: s)) = (w0 :: w') ++ '$' :: s from rfl,
        scanReplace_append_none _ []
          (fun c hc t => tryBlockMath_head_ne ((hwc c hc).1) t)]
      have hclose : ∀ c, s.head? = some c → c ≠ '$' := by
        intro c hc
        cases s with
        | nil => simp at hc
        | cons s0 s' =>
          simp only [List.head?_cons, Option.some.injEq] at hc
          subst hc
          exact (hs s0 (List.mem_cons_self _ _)).1
      rw [scanReplace_cons_none [] (tryBlockMath_dollar_head_ne hclose)]
      rw [blockPass_id_of_no_dollar [] (fun c hc => (hs c hc).1)]
    have hip : scanReplace tryInline (p ++ '$' :: ((w0 :: w') ++ '$' :: s)) []
        = (p ++ placeholder 0 ++ s,
           [⟨BlockType.mathInline, '$' :: ((w0 :: w') ++ ['$'])⟩]) := by
      rw [scanReplace_append_none _ []
        (fun c hc t => tryInline_head_ne ((hp c hc).1) t)]
      rw [scanReplace_cons_some tryInline_shrink [] (tryInline_at_region (w0 :: w') s hw hwc)]
      rw [inlinePass_id_of_no_dollar _ (fun c hc => (hs c hc).1)]
      simp [List.append_assoc]
    have hmemt : ∀ c ∈ p ++ placeholder 0 ++ s, c ≠ '\x60' := by
      intro c hc
      rcases List.mem_append.mp hc with hc1 | hc2
      · rcases List.mem_append.mp hc1 with hc3 | hc4
        · exact (hp c hc3).2.1
        · exact (placeholder_chars 0 c hc4).2
      · exact (hs c hc2).2.1
    simp only [extractRestoreId, extractBlocks, hbp, hip,
      mermaidPass_id_of_no_tick _ hmemt]
    rw [List.append_assoc,
      restoreScan_append_none _ _ (fun c hc t => tryPreserved_head_ne ((hp c hc).2.2) t),
      restoreScan_at_placeholder_in _ 0 s (by simp) (fun c hc => (hs c hc).2.2)]
    simp [Except.map, List.append_assoc]

/-- Witness for C3 (amended): a block region `$$\nE\n$$` and an inline region
`$a+b$` in context both survive the round trip verbatim. -/
theorem math_regions_restored_witness :
    extractRestoreId ((("x ").data) ++ '$' :: '$' :: '\n' :: (((("E\n").data))
        ++ '$' :: '$' :: (((" y").data))))
      = Except.ok ((("x ").data) ++ '$' :: '$' :: '\n' :: (((("E\n").data))
        ++ '$' :: '$' :: (((" y").data)))) :=
  (math_regions_restored (("x ").data) ((" y").data) (by decide) (by decide)).1
    (("E\n").data) (by decide) (by decide)

/-! ## Placeholder index range at restoration (C10) -/

/-- C10: a placeholder comment whose index is at least the number of
extracted blocks makes the restoration callback dereference an undefined
entry and throw (modelled as `Except.error ()`); in the render pass the
exception is caught, an error is reported, and the surface HTML is left
untouched. A placeholder with an in-range index is substituted by the stored
block content. -/
theorem restore_placeholder_range (bs : List PBlock) (p s : List Char) (k : Nat)
    (hp : ∀ c ∈ p, c ≠ '<') :
    (bs.length ≤ k → restoreScan bs (p ++ placeholder k ++ s) = Except.error ())
    ∧ (∀ hk : k < bs.length, (∀ c ∈ s, c ≠ '<') →
        restoreScan bs (p ++ placeholder k ++ s)
          = Except.ok (p ++ (bs.get ⟨k, hk⟩).content ++ s))
    ∧ (∀ (panelHtml : List Char) (rand : Nat → Fin 62),
        updateWebviewContent (fun t => Except.ok t) (fun x => x) rand
            (("<!--PRESERVED_0-->").data) panelHtml
          = (panelHtml,
             some ((("Failed to render markdown: Cannot read properties of undefined (reading \x27type\x27)").data)))) := by
  refine ⟨fun hk => ?_, fun hk hs => ?_, fun panelHtml rand => rfl⟩
  · rw [List.append_assoc,
      restoreScan_append_none _ _ (fun c hc t => tryPreserved_head_ne (hp c hc) t),
      restoreScan_at_placeholder_out bs k s hk]
    rfl
  · rw [List.append_assoc,
      restoreScan_append_none _ _ (fun c hc t => tryPreserved_head_ne (hp c hc) t),
      restoreScan_at_placeholder_in bs k s hk hs]
    simp [Except.map, List.append_assoc]

/-- Witness for C10: out-of-range index 5 with one stored block errors;
in-range index 0 substitutes the stored content. -/
theorem restore_placeholder_range_witness :
    restoreScan [⟨BlockType.mathInline, (("$x$").data)⟩]
        ((("a ").data) ++ placeholder 5 ++ ((" b").data)) = Except.error ()
    ∧ restoreScan [⟨BlockType.mathInline, (("$x$").data)⟩]
        ((("a ").data) ++ placeholder 0 ++ ((" b").data))
      = Except.ok ((("a ").data) ++ (("$x$").data) ++ ((" b").data)) := by
  constructor
  · exact (restore_placeholder_range [⟨BlockType.mathInline, (("$x$").data)⟩]
      (("a ").data) ((" b").data) 5 (by decide)).1 (by decide)
  · exact (restore_placeholder_range [⟨BlockType.mathInline, (("$x$").data)⟩]
      (("a ").data) ((" b").data) 0 (by decide)).2.1 (by decide) (by decide)

/-! ## Render failure leaves the surface untouched (C8) -/

/-- C8: when the external markdown renderer throws (or the restoration step
throws), `updateWebviewContent`'s catch handler reports the failure and the
surface HTML is not assigned — the previous render stays in place and no
partial HTML is produced. -/
theorem render_failure_preserves_surface
    (md : List Char → Except (List Char) (List Char))
    (resolve : List Char → List Char) (rand : Nat → Fin 62)
    (text panelHtml : List Char) :
    (∀ e, md (extractBlocks text).1 = Except.error e →
      updateWebviewContent md resolve rand text panelHtml
        = (panelHtml, some ((("Failed to render markdown: ").data) ++ e)))
    ∧ (∀ h0, md (extractBlocks text).1 = Except.ok h0 →
        restoreScan (extractBlocks text).2 (addHeadingIdsStr (extractHeadings text) h0)
          = Except.error () →
        updateWebviewContent md resolve rand text panelHtml
          = (panelHtml,
             some ((("Failed to render markdown: Cannot read properties of undefined (reading \x27type\x27)").data)))) := by
  constructor
  · intro e he
    simp only [updateWebviewContent, he]
  · intro h0 h1 h2
    simp only [updateWebviewContent, h1, h2]

/-- Witness for C8: a renderer that throws leaves the previous HTML in place
and surfaces the message. -/
theorem render_failure_preserves_surface_witness :
    updateWebviewContent (fun _ => Except.error (("boom").data)) (fun x => x)
        (fun _ => ⟨0, by decide⟩) (("# t").data) (("prev").data)
      = ((("prev").data),
         some ((("Failed to render markdown: ").data) ++ (("boom").data))) :=
  (render_failure_preserves_surface (fun _ => Except.error (("boom").data)) (fun x => x)
    (fun _ => ⟨0, by decide⟩) (("# t").data) (("prev").data)).1 (("boom").data) rfl

/-! ## Security token (C9) -/

/-- C9: the assembled document carries exactly one token: the CSP declaration
and all three script tags reference the `nonce` argument (four token slots,
all equal); `getNonce` produces a 32-character string over the 62-character
alphanumeric alphabet; and a successful render pass assembles the document
with the token generated by `getNonce` from this pass's random source. -/
theorem nonce_token_single_and_fresh :
    (∀ (body nonce : List Char) (hs : List Heading),
      docTokens (getWebviewParts body nonce hs) = List.replicate 4 nonce)
    ∧ (∀ rand : Nat → Fin 62, (getNonce rand).length = 32
        ∧ ∀ c ∈ getNonce rand, c ∈ noncePossible)
    ∧ noncePossible.length = 62
    ∧ (∀ (md : List Char → Except (List Char) (List Char))
        (resolve : List Char → List Char) (rand : Nat → Fin 62)
        (text panelHtml h0 : List Char),
        md (extractBlocks text).1 = Except.ok h0 →
        ∀ html2, restoreScan (extractBlocks text).2
            (addHeadingIdsStr (extractHeadings text) h0) = Except.ok html2 →
        updateWebviewContent md resolve rand text panelHtml
          = (renderDoc (getWebviewParts (imgPass resolve html2) (getNonce rand)
              (extractHeadings text)), none)) := by
  refine ⟨fun body nonce hs => rfl, fun rand => ⟨by simp [getNonce], ?_⟩, rfl, ?_⟩
  · intro c hc
    simp only [getNonce, List.mem_map] at hc
    obtain ⟨i, -, hi⟩ := hc
    have hlt : ((rand i : Fin 62) : Nat) < noncePossible.length := by
      rw [show noncePossible.length = 62 from rfl]
      exact (rand i).isLt
    rw [← hi, List.getD_eq_getElem?_getD, List.getElem?_eq_getElem hlt, Option.getD_some]
    exact List.getElem_mem hlt
  · intro md resolve rand text panelHtml h0 hmd html2 hres
    simp only [updateWebviewContent, hmd, hres, getWebviewContent]

/-- Witness for C9's success-path conjunct at a concrete pass. -/
theorem nonce_token_single_and_fresh_witness :
    updateWebviewContent (fun t => Except.ok t) (fun x => x) (fun _ => ⟨0, by decide⟩)
        (("# A").data) (("prev").data)
      = (renderDoc (getWebviewParts (imgPass (fun x => x) (("# A").data))
          (getNonce (fun _ => ⟨0, by decide⟩)) (extractHeadings (("# A").data))), none) :=
  nonce_token_single_and_fresh.2.2.2 (fun t => Except.ok t) (fun x => x)
    (fun _ => ⟨0, by decide⟩) (("# A").data) (("prev").data) (("# A").data) rfl
    (("# A").data) rfl

/-! ## Heading-id injection pairs records with tags in order (C2) -/

theorem tagIds_cons_tag (k l : Nat) (id : Option (List Char)) (ts : List HtmlTok) :
    tagIds k (HtmlTok.tag l id :: ts)
      = if l = k then id :: tagIds k ts else tagIds k ts := by
  by_cases hl : l = k <;> simp [tagIds, hl]

theorem tagIds_cons_txt (k : Nat) (s : List Char) (ts : List HtmlTok) :
    tagIds k (HtmlTok.txt s :: ts) = tagIds k ts := by
  simp [tagIds]

theorem replaceFirstTag_cons_hit (k : Nat) (id : List Char) (ts : List HtmlTok) :
    replaceFirstTag k id (HtmlTok.tag k none :: ts) = HtmlTok.tag k (some id) :: ts := by
  simp [replaceFirstTag]

theorem replaceFirstTag_cons_none_ne {l k : Nat} (hl : l ≠ k) (id : List Char)
    (ts : List HtmlTok) :
    replaceFirstTag k id (HtmlTok.tag l none :: ts)
      = HtmlTok.tag l none :: replaceFirstTag k id ts := by
  simp [replaceFirstTag, hl]

theorem replaceFirstTag_cons_some (k l : Nat) (i id : List Char) (ts : List HtmlTok) :
    replaceFirstTag k id (HtmlTok.tag l (some i) :: ts)
      = HtmlTok.tag l (some i) :: replaceFirstTag k id ts := rfl

theorem replaceFirstTag_cons_txt (k : Nat) (s : List Char) (id : List Char)
    (ts : List HtmlTok) :
    replaceFirstTag k id (HtmlTok.txt s :: ts)
      = HtmlTok.txt s :: replaceFirstTag k id ts := rfl

theorem tagIds_replaceFirstTag_eq (k : Nat) (id : List Char) :
    ∀ ts : List HtmlTok,
      tagIds k (replaceFirstTag k id ts) = replaceFirstNone id (tagIds k ts) := by
  intro ts
  induction ts with
  | nil => rfl
  | cons t ts' ih =>
    match t with
    | HtmlTok.tag l none =>
      by_cases hl : l = k
      · subst hl
        rw [replaceFirstTag_cons_hit, tagIds_cons_tag, if_pos rfl, tagIds_cons_tag, if_pos rfl]
        rfl
      · rw [replaceFirstTag_cons_none_ne hl, tagIds_cons_tag, if_neg hl,
          tagIds_cons_tag, if_neg hl, ih]
    | HtmlTok.tag l (some i) =>
      by_cases hl : l = k
      · subst hl
        rw [replaceFirstTag_cons_some, tagIds_cons_tag, if_pos rfl, tagIds_cons_tag,
          if_pos rfl, ih]
        rfl
      · rw [replaceFirstTag_cons_some, tagIds_cons_tag, if_neg hl, tagIds_cons_tag,
          if_neg hl, ih]
    | HtmlTok.txt s =>
      rw [replaceFirstTag_cons_txt, tagIds_cons_txt, tagIds_cons_txt, ih]

theorem tagIds_replaceFirstTag_ne (k lvl : Nat) (hne : lvl ≠ k) (id : List Char) :
    ∀ ts : List HtmlTok, tagIds k (replaceFirstTag lvl id ts) = tagIds k ts := by
  intro ts
  induction ts with
  | nil => rfl
  | cons t ts' ih =>
    match t with
    | HtmlTok.tag l none =>
      by_cases hl : l = lvl
      · subst hl
        rw [replaceFirstTag_cons_hit, tagIds_cons_tag, if_neg hne, tagIds_cons_tag, if_neg hne]
      · rw [replaceFirstTag_cons_none_ne hl, tagIds_cons_tag, tagIds_cons_tag, ih]
    | HtmlTok.tag l (some i) =>
      rw [replaceFirstTag_cons_some, tagIds_cons_tag, tagIds_cons_tag, ih]
    | HtmlTok.txt s =>
      rw [replaceFirstTag_cons_txt, tagIds_cons_txt, tagIds_cons_txt, ih]

theorem applyIds_nil (slots : List (Option (List Char))) : applyIds [] slots = slots := rfl

theorem applyIds_cons (i : List Char) (ids : List (List Char))
    (slots : List (Option (List Char))) :
    applyIds (i :: ids) slots = applyIds ids (replaceFirstNone i slots) := rfl

theorem applyIds_some_cons (ids : List (List Char)) :
    ∀ (a : List Char) (slots : List (Option (List Char))),
      applyIds ids (some a :: slots) = some a :: applyIds ids slots := by
  induction ids with
  | nil => intro a slots; rfl
  | cons i ids' ih =>
    intro a slots
    rw [applyIds_cons, show replaceFirstNone i (some a :: slots)
        = some a :: replaceFirstNone i slots from rfl, ih, applyIds_cons]

theorem applyIds_replicate : ∀ (ids : List (List Char)),
    applyIds ids (List.replicate ids.length none) = ids.map some := by
  intro ids
  induction ids with
  | nil => rfl
  | cons i ids' ih =>
    rw [List.length_cons, List.replicate_succ, applyIds_cons,
      show replaceFirstNone i (none :: List.replicate ids'.length none)
        = some i :: List.replicate ids'.length none from rfl,
      applyIds_some_cons, ih, List.map_cons]

theorem addHeadingIds_cons (h : Heading) (hs : List Heading) (ts : List HtmlTok) :
    addHeadingIds (h :: hs) ts = addHeadingIds hs (replaceFirstTag h.level h.id ts) := rfl

theorem tagIds_addHeadingIds (k : Nat) : ∀ (hs : List Heading) (ts : List HtmlTok),
    tagIds k (addHeadingIds hs ts) = applyIds (hIds k hs) (tagIds k ts) := by
  intro hs
  induction hs with
  | nil => intro ts; rfl
  | cons h hs' ih =>
    intro ts
    rw [addHeadingIds_cons, ih]
    by_cases hl : h.level = k
    · rw [show hIds k (h :: hs') = h.id :: hIds k hs' by simp [hIds, hl],
        applyIds_cons, hl, tagIds_replaceFirstTag_eq]
    · rw [show hIds k (h :: hs') = hIds k hs' by simp [hIds, hl],
        tagIds_replaceFirstTag_ne k h.level hl]

theorem closeLoop_snd_mem : ∀ (cur lvl : Nat), ∀ t ∈ (closeLoop cur lvl).2,
    t = TocTok.closeUL := by
  intro cur
  induction cur with
  | zero => intro lvl t ht; simp [closeLoop] at ht
  | succ n ih =>
    intro lvl t ht
    rw [closeLoop] at ht
    split_ifs at ht with hc
    · simp only [List.mem_cons] at ht
      rcases ht with ht | ht
      · exact ht
      · exact ih lvl t ht
    · simp at ht

theorem openWhileF_snd_mem : ∀ (fuel cur target : Nat), ∀ t ∈ (openWhileF fuel cur target).2,
    t = TocTok.openUL := by
  intro fuel
  induction fuel with
  | zero => intro cur target t ht; simp [openWhileF] at ht
  | succ n ih =>
    intro cur target t ht
    rw [openWhileF] at ht
    split_ifs at ht with hc
    · simp only [List.mem_cons] at ht
      rcases ht with ht | ht
      · exact ht
      · exact ih (cur + 1) target t ht
    · simp at ht

theorem closeAll_mem : ∀ (n : Nat), ∀ t ∈ closeAll n, t = TocTok.closeUL := by
  intro n
  induction n with
  | zero => intro t ht; simp [closeAll] at ht
  | succ m ih =>
    intro t ht
    simp only [closeAll, List.mem_cons] at ht
    rcases ht with ht | ht
    · exact ht
    · exact ih t ht

theorem tocHrefs_all_ul {l : List TocTok}
    (h : ∀ t ∈ l, t = TocTok.openUL ∨ t = TocTok.closeUL) : tocHrefs l = [] := by
  induction l with
  | nil => rfl
  | cons t ts ih =>
    rcases h t (List.mem_cons_self _ _) with ht | ht <;> subst ht <;>
      simpa [tocHrefs] using ih (fun x hx => h x (List.mem_cons_of_mem _ hx))

theorem tocHrefs_append (a b : List TocTok) : tocHrefs (a ++ b) = tocHrefs a ++ tocHrefs b :=
  List.filterMap_append _ _ _

theorem tocHrefs_tocBody : ∀ (hs : List Heading) (cur : Nat),
    tocHrefs (tocBody cur hs) = hs.map (fun h => '#' :: h.id) := by
  intro hs
  induction hs with
  | nil =>
    intro cur
    exact tocHrefs_all_ul (fun t ht => Or.inr (closeAll_mem cur t ht))
  | cons h hs' ih =>
    intro cur
    rw [tocBody]
    simp only [tocHrefs_append]
    rw [tocHrefs_all_ul (fun t ht => Or.inr (closeLoop_snd_mem cur h.level t ht)),
      tocHrefs_all_ul (show ∀ t ∈ (openWhile (closeLoop cur h.level).1 (h.level - 1)).2,
          t = TocTok.openUL ∨ t = TocTok.closeUL
        from fun t ht => Or.inl (openWhileF_snd_mem _ _ _ t ht))]
    have ho2 : tocHrefs (if (openWhile (closeLoop cur h.level).1 (h.level - 1)).1 < h.level
        then ((openWhile (closeLoop cur h.level).1 (h.level - 1)).1 + 1, [TocTok.openUL])
        else ((openWhile (closeLoop cur h.level).1 (h.level - 1)).1, ([] : List TocTok))).2
        = [] := by
      split_ifs <;> rfl
    rw [ho2]
    simp only [List.nil_append]
    rw [show tocHrefs (TocTok.item h.level h.id h.text
        :: tocBody (if (openWhile (closeLoop cur h.level).1 (h.level - 1)).1 < h.level
          then ((openWhile (closeLoop cur h.level).1 (h.level - 1)).1 + 1, [TocTok.openUL])
          else ((openWhile (closeLoop cur h.level).1 (h.level - 1)).1, [])).1 hs')
        = ('#' :: h.id) :: tocHrefs (tocBody (if (openWhile (closeLoop cur h.level).1 (h.level - 1)).1 < h.level
          then ((openWhile (closeLoop cur h.level).1 (h.level - 1)).1 + 1, [TocTok.openUL])
          else ((openWhile (closeLoop cur h.level).1 (h.level - 1)).1, [])).1 hs')
      from rfl, ih]
    rfl

theorem tocHrefs_generateTOCtokens (hs : List Heading) :
    tocHrefs (generateTOCtokens hs) = hs.map (fun h => '#' :: h.id) := by
  rw [generateTOCtokens,
    show tocHrefs (TocTok.openUL :: tocBody 0 hs) = tocHrefs (tocBody 0 hs) from rfl,
    tocHrefs_tocBody]

/-! ## Bridging: token-level injection equals string-level `replace` -/

theorem collapseWsAux_mem : ∀ (b : Bool) (l : List Char) (c : Char),
    c ∈ collapseWsAux b l → c = '-' ∨ c ∈ l := by
  intro b l
  induction l generalizing b with
  | nil => intro c hc; simp [collapseWsAux] at hc
  | cons x l' ih =>
    intro c hc
    rw [collapseWsAux] at hc
    split_ifs at hc with h1 h2
    · rcases ih true c hc with h | h
      · exact Or.inl h
      · exact Or.inr (List.mem_cons_of_mem _ h)
    · rcases List.mem_cons.mp hc with h | h
      · exact Or.inl h
      · rcases ih true c h with h' | h'
        · exact Or.inl h'
        · exact Or.inr (List.mem_cons_of_mem _ h')
    · rcases List.mem_cons.mp hc with h | h
      · exact Or.inr (h ▸ List.mem_cons_self _ _)
      · rcases ih false c h with h' | h'
        · exact Or.inl h'
        · exact Or.inr (List.mem_cons_of_mem _ h')

theorem slug_pred_ne_lt {c : Char} (h : (isWordChar c || isJsWs c || c = '-') = true) :
    c ≠ '<' := by
  intro he
  subst he
  exact absurd h (by decide)

theorem headingId_no_lt (text : List Char) (idx : Nat) :
    ∀ c ∈ headingId text idx, c ≠ '<' := by
  intro c hc
  rw [headingId] at hc
  rcases List.mem_append.mp hc with hc1 | hc2
  · rcases List.mem_append.mp hc1 with hc3 | hc4
    · fin_cases hc3 <;> decide
    · rw [slugify] at hc4
      rcases collapseWsAux_mem false _ c hc4 with h | h
      · subst h; decide
      · exact slug_pred_ne_lt (List.mem_filter.mp h).2
  · rcases List.mem_cons.mp hc2 with h | h
    · subst h; decide
    · exact (isDigit_ne (natToDecimal_all_digits idx c h)).2.2

theorem isDigit_ne_gt_space {c : Char} (h : c.isDigit = true) : c ≠ '>' ∧ c ≠ ' ' := by
  constructor <;> intro he <;> subst he <;> exact absurd h (by decide)

theorem digits_gt_isPrefixOf : ∀ (dk dl rest : List Char), (∀ c ∈ dk, c.isDigit = true) →
    (∀ c ∈ dl, c.isDigit = true) →
    ((dk ++ ['>']).isPrefixOf (dl ++ '>' :: rest) = true ↔ dk = dl) := by
  intro dk
  induction dk with
  | nil =>
    intro dl rest _ hdl
    cases dl with
    | nil => simp [List.isPrefixOf]
    | cons d dl' =>
      have hd : ¬('>' = d) := fun h => (isDigit_ne_gt_space (hdl d (List.mem_cons_self _ _))).1 h.symm
      simp [List.isPrefixOf, hd]
  | cons c dk' ih =>
    intro dl rest hdk hdl
    have hc : c ≠ '>' := (isDigit_ne_gt_space (hdk c (List.mem_cons_self _ _))).1
    cases dl with
    | nil => simp [List.isPrefixOf, hc]
    | cons d dl' =>
      have hrec := ih dl' rest (fun x hx => hdk x (List.mem_cons_of_mem _ hx))
        (fun x hx => hdl x (List.mem_cons_of_mem _ hx))
      simp [List.isPrefixOf, hrec]

theorem digits_gt_not_prefix_space : ∀ (dk dl rest : List Char),
    (∀ c ∈ dk, c.isDigit = true) → (∀ c ∈ dl, c.isDigit = true) →
    (dk ++ ['>']).isPrefixOf (dl ++ ' ' :: rest) = false := by
  intro dk
  induction dk with
  | nil =>
    intro dl rest _ hdl
    cases dl with
    | nil => simp [List.isPrefixOf]
    | cons d dl' =>
      have hd : ¬('>' = d) := fun h => (isDigit_ne_gt_space (hdl d (List.mem_cons_self _ _))).1 h.symm
      simp [List.isPrefixOf, hd]
  | cons c dk' ih =>
    intro dl rest hdk hdl
    cases dl with
    | nil =>
      have hc : c ≠ ' ' := (isDigit_ne_gt_space (hdk c (List.mem_cons_self _ _))).2
      simp [List.isPrefixOf, hc]
    | cons d dl' =>
      have hrec := ih dl' rest (fun x hx => hdk x (List.mem_cons_of_mem _ hx))
        (fun x hx => hdl x (List.mem_cons_of_mem _ hx))
      simp [List.isPrefixOf, hrec]

theorem tagPat_eq (lvl : Nat) : tagPat lvl = '<' :: 'h' :: (natToDecimal lvl ++ ['>']) := by
  rw [tagPat]
  rfl

theorem tagPatId_eq (lvl : Nat) (id : List Char) :
    tagPatId lvl id
      = '<' :: 'h' :: (natToDecimal lvl
          ++ (' ' :: 'i' :: 'd' :: '=' :: '"' :: (id ++ ['"', '>']))) := by
  rw [tagPatId]
  simp

theorem tagTail_no_lt (lvl : Nat) : ∀ c ∈ 'h' :: (natToDecimal lvl ++ ['>']), c ≠ '<' := by
  intro c hc
  rcases List.mem_cons.mp hc with h | h
  · subst h; decide
  · rcases List.mem_append.mp h with h' | h'
    · exact (isDigit_ne (natToDecimal_all_digits lvl c h')).2.2
    · rw [List.mem_singleton] at h'
      subst h'; decide

theorem tagIdTail_no_lt (lvl : Nat) (id : List Char) (hid : ∀ c ∈ id, c ≠ '<') :
    ∀ c ∈ 'h' :: (natToDecimal lvl ++ (' ' :: 'i' :: 'd' :: '=' :: '"' :: (id ++ ['"', '>']))),
      c ≠ '<' := by
  intro c hc
  rcases List.mem_cons.mp hc with h | h
  · subst h; decide
  · rcases List.mem_append.mp h with h' | h'
    · exact (isDigit_ne (natToDecimal_all_digits lvl c h')).2.2
    · rcases List.mem_cons.mp h' with h2 | h2
      · subst h2; decide
      · rcases List.mem_cons.mp h2 with h3 | h3
        · subst h3; decide
        · rcases List.mem_cons.mp h3 with h4 | h4
          · subst h4; decide
          · rcases List.mem_cons.mp h4 with h5 | h5
            · subst h5; decide
            · rcases List.mem_cons.mp h5 with h6 | h6
              · subst h6; decide
              · rcases List.mem_append.mp h6 with h7 | h7
                · exact hid c h7
                · rcases List.mem_cons.mp h7 with h8 | h8
                  · subst h8; decide
                  · rw [List.mem_singleton] at h8
                    subst h8; decide

theorem isPrefixOf_cons_ne {c d : Char} (p t : List Char) (h : c ≠ d) :
    ((c :: p).isPrefixOf (d :: t)) = false := by
  simp [List.isPrefixOf, h]

theorem replaceFirstStr_cons_nomatch {pat : List Char} (repl : List Char) {c : Char}
    {cs : List Char} (h : pat.isPrefixOf (c :: cs) = false) :
    replaceFirstStr pat repl (c :: cs) = c :: replaceFirstStr pat repl cs := by
  rw [replaceFirstStr, if_neg]
  rw [h]
  simp

theorem replaceFirstStr_skip_no_lt {p' repl : List Char} :
    ∀ (s r : List Char), (∀ c ∈ s, c ≠ '<') →
      replaceFirstStr ('<' :: p') repl (s ++ r) = s ++ replaceFirstStr ('<' :: p') repl r := by
  intro s
  induction s with
  | nil => intro r _; rfl
  | cons x s' ih =>
    intro r hs
    have hx : x ≠ '<' := hs x (List.mem_cons_self _ _)
    rw [List.cons_append,
      replaceFirstStr_cons_nomatch _ (isPrefixOf_cons_ne _ _ (fun h => hx h.symm)),
      ih r (fun c hc => hs c (List.mem_cons_of_mem _ hc)), List.cons_append]

theorem replaceFirstStr_at_match (p0 : Char) (pp repl r : List Char) :
    replaceFirstStr (p0 :: pp) repl ((p0 :: pp) ++ r) = repl ++ r := by
  rw [show (p0 :: pp) ++ r = p0 :: (pp ++ r) from rfl, replaceFirstStr, if_pos]
  · rw [show (p0 :: (pp ++ r)) = (p0 :: pp) ++ r from rfl, List.length_cons]
    congr 1
    rw [show ((p0 :: pp) ++ r) = p0 :: (pp ++ r) from rfl, List.drop_succ_cons,
      List.drop_left]
  · rw [isPrefixOf_eq]
    exact ⟨r, rfl⟩

theorem replaceFirstStr_skip_tok (p' repl : List Char) (c0 : Char) (body r : List Char)
    (hfail : (('<' :: p').isPrefixOf (c0 :: (body ++ r))) = false)
    (hbody : ∀ c ∈ body, c ≠ '<') :
    replaceFirstStr ('<' :: p') repl ((c0 :: body) ++ r)
      = (c0 :: body) ++ replaceFirstStr ('<' :: p') repl r := by
  rw [show (c0 :: body) ++ r = c0 :: (body ++ r) from rfl,
    replaceFirstStr_cons_nomatch _ hfail, replaceFirstStr_skip_no_lt body r hbody,
    List.cons_append]

theorem renderHtml_nil : renderHtml [] = [] := rfl

theorem renderHtml_cons (t : HtmlTok) (ts : List HtmlTok) :
    renderHtml (t :: ts) = renderHtmlTok t ++ renderHtml ts := by
  simp [renderHtml]

theorem renderHtml_replaceFirstTag (lvl : Nat) (id : List Char) :
    ∀ ts : List HtmlTok,
      (∀ s, HtmlTok.txt s ∈ ts → ∀ c ∈ s, c ≠ '<') →
      (∀ l i, HtmlTok.tag l (some i) ∈ ts → ∀ c ∈ i, c ≠ '<') →
      renderHtml (replaceFirstTag lvl id ts)
        = replaceFirstStr (tagPat lvl) (tagPatId lvl id) (renderHtml ts) := by
  intro ts
  induction ts with
  | nil => intro _ _; rfl
  | cons t ts' ih =>
    intro htxt htags
    have htxt' : ∀ s, HtmlTok.txt s ∈ ts' → ∀ c ∈ s, c ≠ '<' :=
      fun s hs => htxt s (List.mem_cons_of_mem _ hs)
    have htags' : ∀ l i, HtmlTok.tag l (some i) ∈ ts' → ∀ c ∈ i, c ≠ '<' :=
      fun l i hi => htags l i (List.mem_cons_of_mem _ hi)
    match t with
    | HtmlTok.txt s =>
      rw [replaceFirstTag_cons_txt, renderHtml_cons, renderHtml_cons]
      rw [show renderHtmlTok (HtmlTok.txt s) = s from rfl, tagPat_eq,
        replaceFirstStr_skip_no_lt s _ (htxt s (List.mem_cons_self _ _)), ← tagPat_eq,
        ih htxt' htags']
    | HtmlTok.tag l none =>
      by_cases hl : l = lvl
      · subst hl
        rw [replaceFirstTag_cons_hit, renderHtml_cons, renderHtml_cons]
        rw [show renderHtmlTok (HtmlTok.tag l (some id)) = tagPatId l id from rfl,
          show renderHtmlTok (HtmlTok.tag l none) = tagPat l from rfl, tagPat_eq,
          replaceFirstStr_at_match]
      · rw [replaceFirstTag_cons_none_ne (fun h => hl h) id, renderHtml_cons, renderHtml_cons]
        rw [show renderHtmlTok (HtmlTok.tag l none) = tagPat l from rfl, tagPat_eq l,
          tagPat_eq lvl]
        have hfail : (('<' :: 'h' :: (natToDecimal lvl ++ ['>'])).isPrefixOf
            ('<' :: (('h' :: (natToDecimal l ++ ['>'])) ++ renderHtml ts'))) = false := by
          rw [show ('<' :: (('h' :: (natToDecimal l ++ ['>'])) ++ renderHtml ts'))
            = '<' :: 'h' :: (natToDecimal l ++ '>' :: renderHtml ts') by simp]
          have hstep : (('<' :: 'h' :: (natToDecimal lvl ++ ['>'])).isPrefixOf
              ('<' :: 'h' :: (natToDecimal l ++ '>' :: renderHtml ts')))
              = ((natToDecimal lvl ++ ['>']).isPrefixOf
                 (natToDecimal l ++ '>' :: renderHtml ts')) := by
            simp [List.isPrefixOf]
          rw [hstep, Bool.eq_false_iff]
          intro htrue
          exact (fun h => hl h.symm) (natToDecimal_injective
            ((digits_gt_isPrefixOf _ _ _ (natToDecimal_all_digits lvl)
              (natToDecimal_all_digits l)).mp htrue))
        rw [show ('<' :: 'h' :: (natToDecimal l ++ ['>']))
            = '<' :: ('h' :: (natToDecimal l ++ ['>'])) from rfl,
          replaceFirstStr_skip_tok _ _ _ _ _ hfail (tagTail_no_lt l), ← tagPat_eq lvl,
          ih htxt' htags']
    | HtmlTok.tag l (some i) =>
      have hi : ∀ c ∈ i, c ≠ '<' := htags l i (List.mem_cons_self _ _)
      rw [replaceFirstTag_cons_some, renderHtml_cons, renderHtml_cons]
      rw [show renderHtmlTok (HtmlTok.tag l (some i)) = tagPatId l i from rfl,
        tagPatId_eq l i, tagPat_eq lvl]
      have hfail : (('<' :: 'h' :: (natToDecimal lvl ++ ['>'])).isPrefixOf
          ('<' :: (('h' :: (natToDecimal l
            ++ (' ' :: 'i' :: 'd' :: '=' :: '"' :: (i ++ ['"', '>']))))
            ++ renderHtml ts'))) = false := by
        rw [show ('<' :: (('h' :: (natToDecimal l
            ++ (' ' :: 'i' :: 'd' :: '=' :: '"' :: (i ++ ['"', '>']))))
            ++ renderHtml ts'))
          = '<' :: 'h' :: (natToDecimal l ++ ' ' :: ('i' :: 'd' :: '=' :: '"'
            :: (i ++ ['"', '>']) ++ renderHtml ts')) by simp]
        have hstep : (('<' :: 'h' :: (natToDecimal lvl ++ ['>'])).isPrefixOf
            ('<' :: 'h' :: (natToDecimal l ++ ' ' :: ('i' :: 'd' :: '=' :: '"'
              :: (i ++ ['"', '>']) ++ renderHtml ts'))))
            = ((natToDecimal lvl ++ ['>']).isPrefixOf
               (natToDecimal l ++ ' ' :: ('i' :: 'd' :: '=' :: '"' :: (i ++ ['"', '>'])
                 ++ renderHtml ts'))) := by
          simp [List.isPrefixOf]
        rw [hstep]
        exact digits_gt_not_prefix_space _ _ _ (natToDecimal_all_digits lvl)
          (natToDecimal_all_digits l)
      rw [show ('<' :: 'h' :: (natToDecimal l
          ++ (' ' :: 'i' :: 'd' :: '=' :: '"' :: (i ++ ['"', '>']))))
        = '<' :: ('h' :: (natToDecimal l
          ++ (' ' :: 'i' :: 'd' :: '=' :: '"' :: (i ++ ['"', '>'])))) from rfl,
        replaceFirstStr_skip_tok _ _ _ _ _ hfail (tagIdTail_no_lt l i hi), ← tagPat_eq lvl,
        ih htxt' htags']

theorem mem_replaceFirstTag (lvl : Nat) (id : List Char) :
    ∀ (ts : List HtmlTok) (t : HtmlTok), t ∈ replaceFirstTag lvl id ts →
      t ∈ ts ∨ t = HtmlTok.tag lvl (some id) := by
  intro ts
  induction ts with
  | nil => intro t ht; simp [replaceFirstTag] at ht
  | cons x ts' ih =>
    intro t ht
    match x with
    | HtmlTok.tag l none =>
      by_cases hl : l = lvl
      · subst hl
        rw [replaceFirstTag_cons_hit] at ht
        rcases List.mem_cons.mp ht with h | h
        · exact Or.inr h
        · exact Or.inl (List.mem_cons_of_mem _ h)
      · rw [replaceFirstTag_cons_none_ne (fun h => hl h) id] at ht
        rcases List.mem_cons.mp ht with h | h
        · exact Or.inl (h ▸ List.mem_cons_self _ _)
        · rcases ih t h with h' | h'
          · exact Or.inl (List.mem_cons_of_mem _ h')
          · exact Or.inr h'
    | HtmlTok.tag l (some i) =>
      rw [replaceFirstTag_cons_some] at ht
      rcases List.mem_cons.mp ht with h | h
      · exact Or.inl (h ▸ List.mem_cons_self _ _)
      · rcases ih t h with h' | h'
        · exact Or.inl (List.mem_cons_of_mem _ h')
        · exact Or.inr h'
    | HtmlTok.txt s =>
      rw [replaceFirstTag_cons_txt] at ht
      rcases List.mem_cons.mp ht with h | h
      · exact Or.inl (h ▸ List.mem_cons_self _ _)
      · rcases ih t h with h' | h'
        · exact Or.inl (List.mem_cons_of_mem _ h')
        · exact Or.inr h'

theorem addHeadingIdsStr_cons (h : Heading) (hs : List Heading) (html : List Char) :
    addHeadingIdsStr (h :: hs) html
      = addHeadingIdsStr hs (replaceFirstStr (tagPat h.level) (tagPatId h.level h.id) html) :=
  rfl

theorem renderHtml_addHeadingIds : ∀ (hs : List Heading) (ts : List HtmlTok),
    (∀ s, HtmlTok.txt s ∈ ts → ∀ c ∈ s, c ≠ '<') →
    (∀ l i, HtmlTok.tag l (some i) ∈ ts → ∀ c ∈ i, c ≠ '<') →
    (∀ h ∈ hs, ∀ c ∈ h.id, c ≠ '<') →
    renderHtml (addHeadingIds hs ts) = addHeadingIdsStr hs (renderHtml ts) := by
  intro hs
  induction hs with
  | nil => intro ts _ _ _; rfl
  | cons h hs' ih =>
    intro ts htxt htags hhs
    have htxt2 : ∀ s, HtmlTok.txt s ∈ replaceFirstTag h.level h.id ts → ∀ c ∈ s, c ≠ '<' := by
      intro s hsm
      rcases mem_replaceFirstTag h.level h.id ts _ hsm with hm | hm
      · exact htxt s hm
      · exact absurd hm (by simp)
    have htags2 : ∀ l i, HtmlTok.tag l (some i) ∈ replaceFirstTag h.level h.id ts →
        ∀ c ∈ i, c ≠ '<' := by
      intro l i him
      rcases mem_replaceFirstTag h.level h.id ts _ him with hm | hm
      · exact htags l i hm
      · simp only [HtmlTok.tag.injEq, Option.some.injEq] at hm
        rw [hm.2]
        exact hhs h (List.mem_cons_self _ _)
    rw [addHeadingIds_cons,
      ih (replaceFirstTag h.level h.id ts) htxt2 htags2
        (fun x hx => hhs x (List.mem_cons_of_mem _ hx)),
      renderHtml_replaceFirstTag h.level h.id ts htxt htags, addHeadingIdsStr_cons]

theorem extractHeadings_id_no_lt (raw : List Char) :
    ∀ h ∈ extractHeadings raw, ∀ c ∈ h.id, c ≠ '<' := by
  intro h hm
  rw [scanHeadings_id_shape _ _ _ h hm]
  exact headingId_no_lt _ _

/-- C2: processing heading records in document order, each record sets the id
of the first still-id-free heading tag of its level, so the i-th tag of each
level ends up carrying the id of the i-th scanned record of that level
(assuming the rendered HTML has exactly as many id-free tags per level as the
scanner produced records, as the external renderer guarantees); every TOC
entry links to the same ids via in-document `#` anchors; and the token-level
account coincides with the source's string-level `String.replace` loop
whenever non-tag markup contains no `<`. -/
theorem heading_ids_paired_and_linked (raw : List Char) (toks : List HtmlTok)
    (htxt : ∀ s, HtmlTok.txt s ∈ toks → ∀ c ∈ s, c ≠ '<')
    (htags : ∀ l i, HtmlTok.tag l (some i) ∈ toks → ∀ c ∈ i, c ≠ '<')
    (hinit : ∀ k, k ≤ 6 → tagIds k toks
        = List.replicate (hIds k (extractHeadings raw)).length none) :
    (∀ k, k ≤ 6 → tagIds k (addHeadingIds (extractHeadings raw) toks)
        = (hIds k (extractHeadings raw)).map some)
    ∧ tocHrefs (generateTOCtokens (extractHeadings raw))
        = (extractHeadings raw).map (fun h => '#' :: h.id)
    ∧ renderHtml (addHeadingIds (extractHeadings raw) toks)
        = addHeadingIdsStr (extractHeadings raw) (renderHtml toks) := by
  refine ⟨fun k hk => ?_, tocHrefs_generateTOCtokens _,
    renderHtml_addHeadingIds _ _ htxt htags (extractHeadings_id_no_lt raw)⟩
  rw [tagIds_addHeadingIds, hinit k hk, applyIds_replicate]

/-- Witness for C2 at a two-heading document rendered to two tags. -/
theorem heading_ids_paired_and_linked_witness :
    (tagIds 1 (addHeadingIds (extractHeadings (("# A\n## B").data))
        [HtmlTok.txt (("x").data), HtmlTok.tag 1 none,
         HtmlTok.txt (("y").data), HtmlTok.tag 2 none])
      = (hIds 1 (extractHeadings (("# A\n## B").data))).map some)
    ∧ renderHtml (addHeadingIds (extractHeadings (("# A\n## B").data))
        [HtmlTok.txt (("x").data), HtmlTok.tag 1 none,
         HtmlTok.txt (("y").data), HtmlTok.tag 2 none])
      = addHeadingIdsStr (extractHeadings (("# A\n## B").data))
          (renderHtml [HtmlTok.txt (("x").data), HtmlTok.tag 1 none,
            HtmlTok.txt (("y").data), HtmlTok.tag 2 none]) := by
  have h := heading_ids_paired_and_linked (("# A\n## B").data)
    [HtmlTok.txt (("x").data), HtmlTok.tag 1 none,
     HtmlTok.txt (("y").data), HtmlTok.tag 2 none]
    (by
      intro s hsm c hc
      simp only [List.mem_cons, List.not_mem_nil, or_false] at hsm
      rcases hsm with h1 | h1 | h1 | h1
      all_goals
        first
        | (injection h1 with h2; subst h2; fin_cases hc <;> decide)
        | exact HtmlTok.noConfusion h1)
    (by
      intro l i him c hc
      simp at him)
    (by intro k hk; interval_cases k <;> rfl)
  exact ⟨h.1 1 (by decide), h.2.2⟩

end MarkdownPreview
